import Mathlib

/-!
Verification of the `schema-gen` tool (`tools/schema-gen/main.py`).

Shallow embedding conventions:
* JSON documents are modelled by the inductive type `Value`; a Python `dict`
  is an association list of `String × Value` pairs in insertion order
  (JSON object keys are strings, and keys of a parsed document are distinct).
* Byte strings are `List Nat` (each element a byte value).
* Python's `sorted` on strings is lexicographic comparison of code points,
  which coincides with Lean's `String` linear order; `sorted` is modelled by
  `List.insertionSort`, which is a stable sort exactly like Python's.
* `hashlib.sha256(...).hexdigest()` is implemented bit-for-bit (FIPS 180-4)
  as `sha256hex` over byte lists.
* The filesystem is modelled by explicit snapshots: an input file carries its
  raw bytes together with the result of parsing them as JSON (`Option Value`,
  `none` meaning `json.loads` fails); the output directory is a partial map
  from relative path to bytes plus an existence flag.
* Numbers are modelled as integers (`Int`), rendered in Python's decimal
  `repr` form by `intRepr`; the regex `SECRET_VALUE_RE` is implemented as an
  explicit matcher over character lists with ASCII case folding.
-/

namespace SchemaGen

/-! ### Basic string utilities -/

/-- Join a list of strings with a separator (Python `sep.join(xs)`). -/
def joinSep (sep : String) : List String → String
  | [] => ""
  | [x] => x
  | x :: y :: rest => x ++ sep ++ joinSep sep (y :: rest)

/-- Decimal digits of a natural number, most significant first (with fuel). -/
def natDigitsAux : Nat → Nat → List Char
  | 0, _ => []
  | _ + 1, 0 => []
  | fuel + 1, n => natDigitsAux fuel (n / 10) ++ [Char.ofNat (48 + n % 10)]

/-- Python `str(n)` for a natural number. -/
def natRepr (n : Nat) : String :=
  if n = 0 then "0" else String.mk (natDigitsAux (n + 1) n)

/-- Python `str(n)` for an integer (`json.dumps` rendering of an int). -/
def intRepr : Int → String
  | .ofNat n => natRepr n
  | .negSucc n => "-" ++ natRepr (n + 1)

/-- Lowercase hex digit for `n < 16`. -/
def hexDigit (n : Nat) : Char :=
  if n < 10 then Char.ofNat (48 + n) else Char.ofNat (87 + n)

/-- UTF-8 encoding of one character. -/
def charUtf8 (c : Char) : List Nat :=
  let n := c.toNat
  if n < 128 then [n]
  else if n < 2048 then [192 + n / 64, 128 + n % 64]
  else if n < 65536 then [224 + n / 4096, 128 + (n / 64) % 64, 128 + n % 64]
  else [240 + n / 262144, 128 + (n / 4096) % 64, 128 + (n / 64) % 64, 128 + n % 64]

/-- UTF-8 encoding of a string (Python `s.encode("utf-8")`). -/
def utf8Bytes (s : String) : List Nat := s.data.flatMap charUtf8

/-- ASCII lowercasing, as applied by Python to the ASCII patterns in use. -/
def lowerAscii (s : String) : String := String.mk (s.data.map Char.toLower)

/-- Whether `needle` occurs at the start of `hay`. -/
def leadsWith : List Char → List Char → Bool
  | [], _ => true
  | _ :: _, [] => false
  | a :: as, b :: bs => a = b && leadsWith as bs

/-- Whether `needle` occurs as a contiguous run inside `hay`
(Python `needle in hay`). -/
def isSubstr (needle : List Char) : List Char → Bool
  | [] => needle.isEmpty
  | c :: rest => leadsWith needle (c :: rest) || isSubstr needle rest

/-- Python `s.split(";")` (keeps empty fields). -/
def splitSemisChars : List Char → List (List Char)
  | [] => [[]]
  | c :: rest =>
    let r := splitSemisChars rest
    if c = ';' then [] :: r
    else
      match r with
      | h :: t => (c :: h) :: t
      | [] => [[c]]

/-- Python `s.split(";")` on strings. -/
def splitSemis (s : String) : List String := (splitSemisChars s.data).map String.mk

/-- Python `s.split(":", 1)[1]`: everything after the first colon
(empty when there is no colon). -/
def afterColonChars : List Char → List Char
  | [] => []
  | c :: rest => if c = ':' then rest else afterColonChars rest

def afterColon (s : String) : String := String.mk (afterColonChars s.data)

/-- Final `/`-separated component of a path string. -/
def lastComponent (p : String) : String :=
  String.mk ((p.data.reverse.takeWhile (fun c => c ≠ '/')).reverse)

/-- Index of the last `'.'` in a character list, if any. -/
def rfindDot : List Char → Option Nat
  | [] => none
  | c :: rest =>
    match rfindDot rest with
    | some i => some (i + 1)
    | none => if c = '.' then some 0 else none

/-- Python `pathlib.PurePath.suffix`: the extension of the final component,
including the dot; empty for hidden files and names ending in a dot. -/
def pathSuffix (p : String) : String :=
  let name := lastComponent p
  let cs := name.data
  match rfindDot cs with
  | some i => if 0 < i ∧ i < cs.length - 1 then String.mk (cs.drop i) else ""
  | none => ""

/-- `_is_yaml_path`: suffix is `.yaml` or `.yml`, case-insensitively. -/
def isYamlPath (p : String) : Bool :=
  lowerAscii (pathSuffix p) = ".yaml" || lowerAscii (pathSuffix p) = ".yml"

/-! ### SHA-256 (`hashlib.sha256(...).hexdigest()`), FIPS 180-4 -/

def wmask (n : Nat) : Nat := n % 4294967296

def rotr32 (k x : Nat) : Nat := wmask ((x >>> k) ||| (x <<< (32 - k)))

def bigSigma0 (x : Nat) : Nat := rotr32 2 x ^^^ rotr32 13 x ^^^ rotr32 22 x
def bigSigma1 (x : Nat) : Nat := rotr32 6 x ^^^ rotr32 11 x ^^^ rotr32 25 x
def smallSigma0 (x : Nat) : Nat := rotr32 7 x ^^^ rotr32 18 x ^^^ (x >>> 3)
def smallSigma1 (x : Nat) : Nat := rotr32 17 x ^^^ rotr32 19 x ^^^ (x >>> 10)
def chFn (x y z : Nat) : Nat := (x &&& y) ^^^ ((x ^^^ 4294967295) &&& z)
def majFn (x y z : Nat) : Nat := (x &&& y) ^^^ (x &&& z) ^^^ (y &&& z)

def sha256K : List Nat :=
  [1116352408, 1899447441, 3049323471, 3921009573, 961987163, 1508970993,
   2453635748, 2870763221, 3624381080, 310598401, 607225278, 1426881987,
   1925078388, 2162078206, 2614888103, 3248222580, 3835390401, 4022224774,
   264347078, 604807628, 770255983, 1249150122, 1555081692, 1996064986,
   2554220882, 2821834349, 2952996808, 3210313671, 3336571891, 3584528711,
   113926993, 338241895, 666307205, 773529912, 1294757372, 1396182291,
   1695183700, 1986661051, 2177026350, 2456956037, 2730485921, 2820302411,
   3259730800, 3345764771, 3516065817, 3600352804, 4094571909, 275423344,
   430227734, 506948616, 659060556, 883997877, 958139571, 1322822218,
   1537002063, 1747873779, 1955562222, 2024104815, 2227730452, 2361852424,
   2428436474, 2756734187, 3204031479, 3329325298]

def sha256Init : List Nat :=
  [1779033703, 3144134277, 1013904242, 2773480762,
   1359893119, 2600822924, 528734635, 1541459225]

/-- Big-endian 8-byte encoding. -/
def be64 (n : Nat) : List Nat :=
  [(n >>> 56) % 256, (n >>> 48) % 256, (n >>> 40) % 256, (n >>> 32) % 256,
   (n >>> 24) % 256, (n >>> 16) % 256, (n >>> 8) % 256, n % 256]

/-- Big-endian 4-byte encoding. -/
def be32 (n : Nat) : List Nat :=
  [(n >>> 24) % 256, (n >>> 16) % 256, (n >>> 8) % 256, n % 256]

/-- SHA-256 message padding. -/
def padMessage (msg : List Nat) : List Nat :=
  msg ++ [128] ++ List.replicate ((119 - msg.length % 64) % 64) 0 ++ be64 (8 * msg.length)

/-- Group bytes into 32-bit big-endian words. -/
def toWords : List Nat → List Nat
  | b0 :: b1 :: b2 :: b3 :: rest => (((b0 * 256 + b1) * 256 + b2) * 256 + b3) :: toWords rest
  | _ => []

/-- Split into 64-byte blocks (structural recursion on a length bound, so
that the definition reduces definitionally). -/
def chunk64Aux : Nat → List Nat → List (List Nat)
  | 0, _ => []
  | _ + 1, [] => []
  | fuel + 1, b :: rest => ((b :: rest).take 64) :: chunk64Aux fuel ((b :: rest).drop 64)

/-- Split into 64-byte blocks. -/
def chunk64 (l : List Nat) : List (List Nat) := chunk64Aux l.length l

/-- One message-schedule extension step; the accumulator holds the schedule
words most recent first. -/
def scheduleStep (acc : List Nat) : List Nat :=
  wmask (smallSigma1 (acc.getD 1 0) + acc.getD 6 0 + smallSigma0 (acc.getD 14 0)
    + acc.getD 15 0) :: acc

/-- The 64-word message schedule of one block (given its 16 words). -/
def schedule (ws : List Nat) : List Nat :=
  ((List.range 48).foldl (fun acc _ => scheduleStep acc) ws.reverse).reverse

/-- One compression round; the state is `[a,b,c,d,e,f,g,h]`. -/
def roundStep (state : List Nat) (kw : Nat × Nat) : List Nat :=
  match state with
  | [a, b, c, d, e, f, g, h] =>
    let t1 := wmask (h + bigSigma1 e + chFn e f g + kw.1 + kw.2)
    let t2 := wmask (bigSigma0 a + majFn a b c)
    [wmask (t1 + t2), a, b, c, wmask (d + t1), e, f, g]
  | s => s

def compressBlock (h : List Nat) (block : List Nat) : List Nat :=
  let ws := schedule (toWords block)
  let final := (sha256K.zip ws).foldl roundStep h
  (h.zip final).map (fun p => wmask (p.1 + p.2))

/-- SHA-256 digest bytes of a byte string. -/
def sha256Bytes (msg : List Nat) : List Nat :=
  ((chunk64 (padMessage msg)).foldl compressBlock sha256Init).flatMap be32

/-- `_sha256_hex`: lowercase hex digest. -/
def sha256hex (msg : List Nat) : String :=
  String.mk ((sha256Bytes msg).flatMap (fun b => [hexDigit (b / 16), hexDigit (b % 16)]))

/-! ### The JSON value model -/

/-- A parsed JSON document (spec §3 `Value`). Objects are association lists in
Python-dict insertion order; keys of a parsed document are distinct. Numbers
are modelled as integers. -/
inductive Value where
  | null : Value
  | bool : Bool → Value
  | num : Int → Value
  | str : String → Value
  | arr : List Value → Value
  | obj : List (String × Value) → Value

/-- Member-wise induction principle for `Value`. -/
def Value.recOnMem {P : Value → Prop}
    (hnull : P .null) (hbool : ∀ b, P (.bool b)) (hnum : ∀ n, P (.num n))
    (hstr : ∀ s, P (.str s))
    (harr : ∀ xs, (∀ v ∈ xs, P v) → P (.arr xs))
    (hobj : ∀ kvs, (∀ kv ∈ kvs, P kv.2) → P (.obj kvs)) : ∀ v, P v
  | .null => hnull
  | .bool b => hbool b
  | .num n => hnum n
  | .str s => hstr s
  | .arr xs => harr xs (fun v hv =>
      Value.recOnMem hnull hbool hnum hstr harr hobj v)
  | .obj kvs => hobj kvs (fun kv hkv =>
      Value.recOnMem hnull hbool hnum hstr harr hobj kv.2)
termination_by v => sizeOf v
decreasing_by
  · have := List.sizeOf_lt_of_mem hv
    simp only [Value.arr.sizeOf_spec]
    omega
  · have h1 := List.sizeOf_lt_of_mem hkv
    have h2 : sizeOf kv.2 < sizeOf kv := by
      obtain ⟨a, b⟩ := kv
      simp only [Prod.mk.sizeOf_spec]
      omega
    simp only [Value.obj.sizeOf_spec]
    omega

/-! ### String comparison and stable sorting (Python `sorted`, `s1 < s2`) -/

/-- Python string `<`: lexicographic comparison of code points, a proper
run-of-the-mill executable definition (kernel-reducible). -/
def strLtChars : List Char → List Char → Bool
  | [], [] => false
  | [], _ :: _ => true
  | _ :: _, [] => false
  | a :: as, b :: bs =>
    if a.toNat < b.toNat then true
    else if b.toNat < a.toNat then false
    else strLtChars as bs

/-- Python string `<=`: lexicographic comparison of code points. -/
def strLeChars : List Char → List Char → Bool
  | [], _ => true
  | _ :: _, [] => false
  | a :: as, b :: bs =>
    if a.toNat < b.toNat then true
    else if b.toNat < a.toNat then false
    else strLeChars as bs

def strLtB (a b : String) : Bool := strLtChars a.data b.data

def strLeB (a b : String) : Bool := strLeChars a.data b.data

/-- The sorting relation on strings. -/
def strLe (a b : String) : Prop := strLeB a b = true

instance : DecidableRel strLe := fun a b => inferInstanceAs (Decidable (_ = true))

theorem strLeChars_total : ∀ x y, strLeChars x y = true ∨ strLeChars y x = true := by
  intro x
  induction x with
  | nil => intro y; left; rfl
  | cons a as ih =>
    intro y
    cases y with
    | nil => right; rfl
    | cons b bs =>
      by_cases h1 : a.toNat < b.toNat
      · left; simp [strLeChars, h1]
      · by_cases h2 : b.toNat < a.toNat
        · right; simp [strLeChars, h2]
        · rcases ih bs with h | h <;> [left; right] <;> simp [strLeChars, h1, h2, h]

theorem strLeChars_trans :
    ∀ x y z, strLeChars x y = true → strLeChars y z = true → strLeChars x z = true := by
  intro x
  induction x with
  | nil => intro y z _ _; rfl
  | cons a as ih =>
    intro y z hxy hyz
    cases y with
    | nil => simp [strLeChars] at hxy
    | cons b bs =>
      cases z with
      | nil => simp [strLeChars] at hyz
      | cons c cs =>
        simp only [strLeChars] at hxy hyz ⊢
        rcases Nat.lt_trichotomy a.toNat b.toNat with hab | hab | hab <;>
          rcases Nat.lt_trichotomy b.toNat c.toNat with hbc | hbc | hbc
        · simp [show a.toNat < c.toNat by omega]
        · simp [show a.toNat < c.toNat by omega]
        · simp [if_neg (show ¬ b.toNat < c.toNat by omega), hbc] at hyz
        · simp [show a.toNat < c.toNat by omega]
        · simp only [if_neg (show ¬ a.toNat < b.toNat by omega),
            if_neg (show ¬ b.toNat < a.toNat by omega)] at hxy
          simp only [if_neg (show ¬ b.toNat < c.toNat by omega),
            if_neg (show ¬ c.toNat < b.toNat by omega)] at hyz
          simp only [if_neg (show ¬ a.toNat < c.toNat by omega),
            if_neg (show ¬ c.toNat < a.toNat by omega)]
          exact ih bs cs hxy hyz
        · simp [if_neg (show ¬ b.toNat < c.toNat by omega), hbc] at hyz
        · simp [if_neg (show ¬ a.toNat < b.toNat by omega), hab] at hxy
        · simp [if_neg (show ¬ a.toNat < b.toNat by omega), hab] at hxy
        · simp [if_neg (show ¬ a.toNat < b.toNat by omega), hab] at hxy

instance : IsTotal String strLe := ⟨fun a b => strLeChars_total a.data b.data⟩

instance : IsTrans String strLe :=
  ⟨fun a b c h1 h2 => strLeChars_trans a.data b.data c.data h1 h2⟩

/-- `sorted` on strings. -/
def sortStrings (l : List String) : List String :=
  List.insertionSort strLe l

/-- Ordering of key/value pairs by key only
(`sorted(x.keys(), key=lambda z: str(z))`). -/
def keyLe {β : Type} (a b : String × β) : Prop := strLe a.1 b.1

instance {β : Type} : DecidableRel (@keyLe β) :=
  fun a b => inferInstanceAs (Decidable (strLe a.1 b.1))

instance {β : Type} : IsTotal (String × β) keyLe :=
  ⟨fun a b => strLeChars_total a.1.data b.1.data⟩

instance {β : Type} : IsTrans (String × β) keyLe :=
  ⟨fun _ _ _ h1 h2 => strLeChars_trans _ _ _ h1 h2⟩

/-- Stable sort of an association list by key. -/
def sortPairs {β : Type} (l : List (String × β)) : List (String × β) :=
  List.insertionSort keyLe l

/-! ### Secret heuristics (`SECRET_KEY_PATTERNS`, `SECRET_VALUE_RE`) -/

def SECRET_KEY_PATTERNS : List String :=
  ["token", "password", "secret", "authorization", "private_key"]

/-- Key heuristic: case-insensitive substring match of any fixed pattern. -/
def keyMatch (k : String) : Bool :=
  SECRET_KEY_PATTERNS.any (fun pat => isSubstr pat.data (lowerAscii k).data)

/-- Python regex `\s` character class (str patterns match Unicode whitespace). -/
def isPySpace (c : Char) : Bool :=
  let n := c.toNat
  n = 32 || (9 ≤ n && n ≤ 13) || (28 ≤ n && n ≤ 31) || n = 133 || n = 160 ||
  n = 5760 || (8192 ≤ n && n ≤ 8202) || n = 8232 || n = 8233 || n = 8239 ||
  n = 8287 || n = 12288

/-- Character class `[a-z0-9\-\._]` under `re.IGNORECASE`. -/
def isBearerTokChar (c : Char) : Bool :=
  let l := c.toLower
  ('a' ≤ l && l ≤ 'z') || ('0' ≤ c && c ≤ '9') || c = '-' || c = '.' || c = '_'

/-- Case-insensitive literal match at the front; returns the rest on success. -/
def ciDropLit : List Char → List Char → Option (List Char)
  | [], hay => some hay
  | _ :: _, [] => none
  | a :: as, b :: bs => if a.toLower = b.toLower then ciDropLit as bs else none

/-- Regex `\s+` at the front; returns the rest after the maximal run. -/
def dropSpaces1 : List Char → Option (List Char)
  | c :: rest => if isPySpace c then some (rest.dropWhile isPySpace) else none
  | [] => none

/-- Branch `bearer\s+[a-z0-9\-\._]+` matching at the front. -/
def bearerAt (cs : List Char) : Bool :=
  match ciDropLit "bearer".data cs with
  | none => false
  | some r1 =>
    match dropSpaces1 r1 with
    | none => false
    | some r2 =>
      match r2 with
      | c :: _ => isBearerTokChar c
      | [] => false

/-- Branch `-----begin\s+private\s+key-----` matching at the front. -/
def pemAt (cs : List Char) : Bool :=
  match ciDropLit "-----begin".data cs with
  | none => false
  | some r1 =>
    match dropSpaces1 r1 with
    | none => false
    | some r2 =>
      match ciDropLit "private".data r2 with
      | none => false
      | some r3 =>
        match dropSpaces1 r3 with
        | none => false
        | some r4 => (ciDropLit "key-----".data r4).isSome

/-- `SECRET_VALUE_RE.search`: either branch matches at some position. -/
def reSearchAux : List Char → Bool
  | [] => false
  | c :: rest => bearerAt (c :: rest) || pemAt (c :: rest) || reSearchAux rest

/-- Value heuristic on a string scalar. -/
def secretValueMatch (s : String) : Bool := reSearchAux s.data

/-! ### Secret Scanner (`_detect_secrets_in_obj`) -/

mutual

/-- Depth-first walk collecting findings in traversal order. -/
def scanV : Value → String → List String
  | .obj kvs, path => scanKVs kvs path
  | .arr xs, path => scanArr xs path 0
  | .str s, path => if secretValueMatch s then ["secret_like_value:" ++ path] else []
  | _, _ => []

def scanKVs : List (String × Value) → String → List String
  | [], _ => []
  | (k, v) :: rest, path =>
    (if keyMatch k then ["secret_like_key:" ++ path ++ "/" ++ k] else [])
      ++ scanV v (path ++ "/" ++ k) ++ scanKVs rest path

def scanArr : List Value → String → Nat → List String
  | [], _, _ => []
  | v :: vs, path, i => scanV v (path ++ "[" ++ natRepr i ++ "]") ++ scanArr vs path (i + 1)

end

/-- `_detect_secrets_in_obj`: walk from the `$` root, then sort. -/
def detectSecrets (v : Value) : List String := sortStrings (scanV v "$")

/-! ### Redactor (`_redact_obj`) -/

mutual

/-- `_redact_obj`: keys are processed in sorted order (the stable key sort is
applied to the processed pairs, which yields the same list as sorting first,
since processing preserves keys and their order); a key matching the key
heuristic has its whole value replaced by the marker; a string matching the
value heuristic is replaced by the marker. -/
def redactV : Value → Value
  | .obj kvs => .obj (sortPairs (redactKVs kvs))
  | .arr xs => .arr (redactArr xs)
  | .str s => if secretValueMatch s then .str "<redacted>" else .str s
  | x => x

def redactKVs : List (String × Value) → List (String × Value)
  | [] => []
  | (k, v) :: rest =>
    (k, if keyMatch k then Value.str "<redacted>" else redactV v) :: redactKVs rest

def redactArr : List Value → List Value
  | [] => []
  | v :: vs => redactV v :: redactArr vs

end

/-! ### OpenAPI Canonicalizer (`_normalize_openapi_json`) -/

mutual

/-- `_normalize_openapi_json`: sorted keys (same stable sort as the source,
applied after the structural pass, which preserves keys and their order),
dropping `examples` keys and `x-` keys unless vendor extensions are kept. -/
def normV (ext : Bool) : Value → Value
  | .obj kvs => .obj (sortPairs (normKVs ext kvs))
  | .arr xs => .arr (normArr ext xs)
  | x => x

def normKVs (ext : Bool) : List (String × Value) → List (String × Value)
  | [] => []
  | (k, v) :: rest =>
    if k = "examples" then normKVs ext rest
    else if k.startsWith "x-" && !ext then normKVs ext rest
    else (k, normV ext v) :: normKVs ext rest

def normArr (ext : Bool) : List Value → List Value
  | [] => []
  | v :: vs => normV ext v :: normArr ext vs

end

/-! ### Canonical Serializer (`_canonical_json_bytes`, `json.dumps` semantics) -/

/-- Indentation step of pretty mode: 2 spaces per depth level. -/
def jsonIndent (d : Nat) : String := String.mk (List.replicate (2 * d) ' ')

/-- `json.dumps` string escaping with `ensure_ascii=False`: only `"`, `\`
and control characters below `0x20` are escaped; everything else (including
all non-ASCII characters) passes through. -/
def escChar (c : Char) : String :=
  if c = '"' then "\\\""
  else if c = '\\' then "\\\\"
  else if c = '\n' then "\\n"
  else if c = '\t' then "\\t"
  else if c = '\r' then "\\r"
  else if c.toNat = 8 then "\\b"
  else if c.toNat = 12 then "\\f"
  else if c.toNat < 32 then
    "\\u00" ++ String.mk [hexDigit (c.toNat / 16), hexDigit (c.toNat % 16)]
  else String.singleton c

/-- JSON string literal encoding. -/
def encStr (s : String) : String := "\"" ++ String.join (s.data.map escChar) ++ "\""

mutual

/-- `json.dumps(v, sort_keys=True, ensure_ascii=False)` with either
`indent=2` (pretty) or `separators=(",", ":")` (compact), at depth `d`.
Object keys are sorted by the same stable key sort as the source; since the
sort compares keys only, sorting the pairs after encoding their values
produces exactly the bytes `json.dumps` produces by sorting keys first. -/
def encV (p : Bool) (d : Nat) : Value → String
  | .null => "null"
  | .bool b => if b then "true" else "false"
  | .num n => intRepr n
  | .str s => encStr s
  | .arr xs =>
    match encArr p (d + 1) xs with
    | [] => "[]"
    | items =>
      if p then
        "[\n" ++ joinSep ",\n" (items.map (fun s => jsonIndent (d + 1) ++ s))
          ++ "\n" ++ jsonIndent d ++ "]"
      else "[" ++ joinSep "," items ++ "]"
  | .obj kvs =>
    match sortPairs (encKVs p (d + 1) kvs) with
    | [] => "\x7b\x7d"
    | q :: qs =>
      let items := (q :: qs).map (fun kv => encStr kv.1 ++ (if p then ": " else ":") ++ kv.2)
      if p then
        "\x7b\n" ++ joinSep ",\n" (items.map (fun s => jsonIndent (d + 1) ++ s))
          ++ "\n" ++ jsonIndent d ++ "\x7d"
      else "\x7b" ++ joinSep "," items ++ "\x7d"

def encArr (p : Bool) (d : Nat) : List Value → List String
  | [] => []
  | v :: vs => encV p d v :: encArr p d vs

def encKVs (p : Bool) (d : Nat) : List (String × Value) → List (String × String)
  | [] => []
  | (k, v) :: rest => (k, encV p d v) :: encKVs p d rest

end

/-- `_canonical_json_bytes` as text: serialized document plus one newline. -/
def canonicalJsonString (v : Value) (pretty : Bool) : String :=
  encV pretty 0 v ++ "\n"

/-- `_canonical_json_bytes`: UTF-8 bytes of the serialization. -/
def canonicalJsonBytes (v : Value) (pretty : Bool) : List Nat :=
  utf8Bytes (canonicalJsonString v pretty)

mutual

/-- Recursively sorts every object's pairs by key and nothing else: two
`Value`s are the same document up to object key order exactly when their
`csortV` images coincide. -/
def csortV : Value → Value
  | .obj kvs => .obj (sortPairs (csortKVs kvs))
  | .arr xs => .arr (csortArr xs)
  | x => x

def csortKVs : List (String × Value) → List (String × Value)
  | [] => []
  | (k, v) :: rest => (k, csortV v) :: csortKVs rest

def csortArr : List Value → List Value
  | [] => []
  | v :: vs => csortV v :: csortArr vs

end

/-! ### Filesystem snapshots and File Discovery (`_walk_files`) -/

/-- One directory entry under the schemas root, as seen by `rglob`: its
`/`-separated path relative to that root, whether it is a directory, its
path relative to the repo root, and (for regular files) its raw bytes with
their JSON parse (`none` when `json.loads` fails). -/
structure FsEntry where
  rel : String
  isDir : Bool
  repoRel : String
  bytes : List Nat
  json : Option Value

/-- The schemas root: the `--schemas` argument, whether the directory
exists, and its recursive entries. -/
structure SchemaDir where
  pathGiven : String
  rootExists : Bool
  entries : List FsEntry

/-- Enumeration order of `sorted(root.rglob("*"))`: path-string order, which
coincides with order of the `/`-joined relative paths since all entries
share the root prefix. -/
def entryLe (a b : FsEntry) : Prop := strLe a.rel b.rel

instance : DecidableRel entryLe :=
  fun a b => inferInstanceAs (Decidable (strLe a.rel b.rel))

instance : IsTotal FsEntry entryLe := ⟨fun a b => strLeChars_total a.rel.data b.rel.data⟩

instance : IsTrans FsEntry entryLe := ⟨fun _ _ _ h1 h2 => strLeChars_trans _ _ _ h1 h2⟩

/-- `_walk_files`: empty when the root is missing; otherwise the sorted
entries, skipping directories, keeping those matching the include filter
(when given) and not matching the exclude filter (when given). The regex
filters are modelled as predicates on the relative path. -/
def walkFiles (sd : SchemaDir) (inc exc : Option (String → Bool)) : List FsEntry :=
  if sd.rootExists then
    (List.insertionSort entryLe sd.entries).filter (fun en =>
      !en.isDir &&
      (match inc with | none => true | some f => f en.rel) &&
      (match exc with | none => true | some f => !f en.rel))
  else []

/-- The `--openapi` input: the argument string, the path relative to the
repo root, existence, raw bytes, and their JSON parse. -/
structure OpenapiInput where
  pathGiven : String
  repoRel : String
  fileExists : Bool
  bytes : List Nat
  json : Option Value

/-- One invocation's inputs and flags (snapshot plus configuration). -/
structure BuildCfg where
  openapi : Option OpenapiInput
  schemas : Option SchemaDir
  incl : Option (String → Bool)
  excl : Option (String → Bool)
  redact : Bool

/-- Schemas half of `_reject_yaml_inputs`. -/
def rejectYamlSchemas (cfg : BuildCfg) : Option String :=
  match cfg.schemas with
  | some sd =>
    if sd.rootExists &&
        (walkFiles sd cfg.incl cfg.excl).any (fun en => isYamlPath en.rel) then
      some "schemas_yaml_not_supported"
    else none
  | none => none

/-- `_reject_yaml_inputs`: the YAML gate, checked on paths only. -/
def rejectYamlInputs (cfg : BuildCfg) : Option String :=
  match cfg.openapi with
  | some o =>
    if isYamlPath o.pathGiven then some "openapi_yaml_not_supported"
    else rejectYamlSchemas cfg
  | none => rejectYamlSchemas cfg

/-! ### Action Builder (`_build_actions`) -/

/-- An output artifact (spec §3 `Action`). -/
structure Action where
  rel_path : String
  kind : String
  content_bytes : List Nat
  sha256 : String
deriving DecidableEq, Repr

/-- Every `Action` of the source is created with
`sha256=_sha256_hex(content)`. -/
def mkAction (rel kind : String) (b : List Nat) : Action :=
  ⟨rel, kind, b, sha256hex b⟩

/-- `add_hash`: an Action whose content is `value + "\n"`. -/
def hashAction (rel value : String) : Action :=
  mkAction rel "hash" (utf8Bytes (value ++ "\n"))

/-- The exceptions `_build_actions` can raise. -/
inductive BuildErr where
  | notFound (msg : String)
  | valueError (msg : String)
deriving DecidableEq

/-- One `inputs` record: kind, repo-relative path, sha256 of raw bytes. -/
structure InputRec where
  kind : String
  path : String
  sha : String
deriving DecidableEq

/-- Manifest input ordering `sorted(inputs, key=lambda t: (t[0], t[1]))`. -/
def inputLe (a b : InputRec) : Prop :=
  strLtB a.kind b.kind = true ∨ (a.kind = b.kind ∧ strLe a.path b.path)

instance : DecidableRel inputLe :=
  fun a b =>
    inferInstanceAs (Decidable (strLtB a.kind b.kind = true ∨ (a.kind = b.kind ∧ strLe a.path b.path)))

def sortInputRecs (l : List InputRec) : List InputRec :=
  List.insertionSort inputLe l

/-- Output ordering `sorted(actions, key=lambda x: x.rel_path)`. -/
def actionLe (a b : Action) : Prop := strLe a.rel_path b.rel_path

instance : DecidableRel actionLe :=
  fun a b => inferInstanceAs (Decidable (strLe a.rel_path b.rel_path))

instance : IsTotal Action actionLe :=
  ⟨fun a b => strLeChars_total a.rel_path.data b.rel_path.data⟩

instance : IsTrans Action actionLe := ⟨fun _ _ _ h1 h2 => strLeChars_trans _ _ _ h1 h2⟩

def sortActions (l : List Action) : List Action :=
  List.insertionSort actionLe l

/-- `input_hashes` dict lookup with default `""` (later insertions win). -/
def lookupHash (l : List (String × String)) (p : String) : String :=
  match (l.reverse.find? (fun x => x.1 = p)).map (fun x => x.2) with
  | some s => s
  | none => ""

/-- `RunMeta` (spec §3): informational counts and flags. -/
structure RunMeta where
  inputs_count : Nat
  outputs_count : Nat
  schemas_count : Nat
  openapi_present : Bool
  redaction_enabled : Bool
deriving DecidableEq

/-- `manifest_obj`: dict literal key order is irrelevant because the
serializer sorts keys. -/
def manifestValue (redactFlag : Bool) (inputs : List InputRec) (acts1 : List Action) : Value :=
  .obj
    [("tool", .obj [("name", .str "schema-gen"), ("version", .str "0.1.0")]),
     ("inputs", .arr ((sortInputRecs inputs).map (fun r =>
        .obj [("kind", .str r.kind), ("path", .str r.path),
              ("sha256", .str (lookupHash (inputs.map (fun q => (q.path, q.sha))) r.path))]))),
     ("outputs", .arr ((sortActions acts1).map (fun a =>
        .obj [("kind", .str a.kind), ("path", .str a.rel_path), ("sha256", .str a.sha256)]))),
     ("redaction", .obj [("enabled", .bool redactFlag)])]

/-- The OpenAPI leg of `_build_actions`: existence check, `add_input`,
parse, secret scan (fail-fast or redact), normalization, serialization. -/
def processOpenapi (redactFlag : Bool) (o : OpenapiInput) : Except BuildErr (InputRec × Action) :=
  if !o.fileExists then
    .error (.notFound ("missing openapi input: " ++ o.pathGiven))
  else
    let irec : InputRec := ⟨"openapi", o.repoRel, sha256hex o.bytes⟩
    match o.json with
    | none => .error (.valueError ("invalid_json:" ++ o.repoRel))
    | some v =>
      let sec := detectSecrets v
      if sec ≠ [] ∧ redactFlag = false then
        .error (.valueError ("secret_detection_failed:" ++ joinSep ";" sec))
      else
        let v2 := if redactFlag ∧ sec ≠ [] then redactV v else v
        let b := canonicalJsonBytes (normV false v2) true
        .ok (irec, mkAction "openapi/openapi.normalized.json" "openapi" b)

/-- One schema file: `add_input`, parse, scan, redact-or-fail, serialize. -/
def processSchemaFile (redactFlag : Bool) (f : FsEntry) : Except BuildErr (InputRec × Action) :=
  let irec : InputRec := ⟨"schema", f.repoRel, sha256hex f.bytes⟩
  match f.json with
  | none => .error (.valueError ("invalid_json:" ++ f.repoRel))
  | some v =>
    let sec := detectSecrets v
    if sec ≠ [] ∧ redactFlag = false then
      .error (.valueError ("secret_detection_failed:" ++ joinSep ";" sec))
    else
      let v2 := if redactFlag ∧ sec ≠ [] then redactV v else v
      let b := canonicalJsonBytes v2 true
      .ok (irec, mkAction ("schemas/" ++ f.rel) "schema" b)

/-- The schema loop of `_build_actions`: stop at the first failing file. -/
def processSchemas (redactFlag : Bool) : List FsEntry → Except BuildErr (List (InputRec × Action))
  | [] => .ok []
  | f :: rest =>
    match processSchemaFile redactFlag f with
    | .error e => .error e
    | .ok x =>
      match processSchemas redactFlag rest with
      | .error e => .error e
      | .ok xs => .ok (x :: xs)

/-- The OpenAPI leg of `_build_actions`. -/
def openapiStage (cfg : BuildCfg) : Except BuildErr (List InputRec × List Action) :=
  match cfg.openapi with
  | none => .ok ([], [])
  | some o =>
    match processOpenapi cfg.redact o with
    | .error e => .error e
    | .ok ra => .ok ([ra.1], [ra.2])

/-- The schemas leg of `_build_actions`, run after the OpenAPI leg. -/
def schemasStage (cfg : BuildCfg) (i1 : List InputRec) (a1 : List Action) :
    Except BuildErr (List InputRec × List Action) :=
  match cfg.schemas with
  | none => .ok (i1, a1)
  | some sd =>
    if !sd.rootExists then .error (.notFound ("missing schemas root: " ++ sd.pathGiven))
    else
      match processSchemas cfg.redact (walkFiles sd cfg.incl cfg.excl) with
      | .error e => .error e
      | .ok pairs => .ok (i1 ++ pairs.map (fun x => x.1), a1 ++ pairs.map (fun x => x.2))

/-- The fallible first phase of `_build_actions`: per-input records and the
openapi/schema Actions, in source order. -/
def buildPrimary (cfg : BuildCfg) : Except BuildErr (List InputRec × List Action) :=
  match openapiStage cfg with
  | .error e => .error e
  | .ok p => schemasStage cfg p.1 p.2

/-- The infallible second phase of `_build_actions`: manifest Action, hash
Actions and run metadata. -/
def assemble (redactFlag openapiGiven : Bool) (inputs : List InputRec)
    (acts1 : List Action) : List Action × RunMeta :=
  let manifestBytes := canonicalJsonBytes (manifestValue redactFlag inputs acts1) true
  let manifestSha := sha256hex manifestBytes
  let acts2 := acts1 ++ [mkAction "manifest.json" "manifest" manifestBytes]
  let acts3 := acts2 ++ [hashAction "hashes/manifest.sha256" manifestSha]
  let acts4 :=
    match acts3.find? (fun a => a.kind = "openapi") with
    | some oa => acts3 ++ [hashAction "hashes/openapi.normalized.sha256" oa.sha256]
    | none => acts3
  let schemaLines := (sortActions acts4).filterMap (fun a =>
    if a.kind = "schema" then some (a.sha256 ++ "  " ++ a.rel_path) else none)
  let schemasIndex := joinSep "\n" schemaLines ++ (if schemaLines.isEmpty then "" else "\n")
  let acts5 := acts4 ++ [hashAction "hashes/schemas.sha256" (sha256hex (utf8Bytes schemasIndex))]
  (acts5,
   { inputs_count := inputs.length
     outputs_count := acts5.length
     schemas_count := (acts1.filter (fun a => a.kind = "schema")).length
     openapi_present := openapiGiven
     redaction_enabled := redactFlag })

/-- `_build_actions`. -/
def buildActions (cfg : BuildCfg) : Except BuildErr (List Action × RunMeta) :=
  match buildPrimary cfg with
  | .error e => .error e
  | .ok (ins, a1) => .ok (assemble cfg.redact cfg.openapi.isSome ins a1)

/-! ### Commands (`_cmd_plan`, `_cmd_generate`, `_cmd_verify`) -/

def EXIT_SUCCESS : Nat := 0
def EXIT_GENERAL_ERROR : Nat := 1
def EXIT_INVALID_ARGS : Nat := 2
def EXIT_PRECONDITION_FAILED : Nat := 3
def EXIT_VALIDATION_FAILED : Nat := 4
def EXIT_UNSAFE_BLOCKED : Nat := 5

/-- `_secret_failure_message`: count plus first (already sorted) finding. -/
def secretFailureMessage (findings : List String) : String :=
  match findings with
  | [] => "secret_detection_failed count=0"
  | f :: rest =>
    "secret_detection_failed count=" ++ natRepr (rest.length + 1) ++ " first=" ++ f

/-- The common `except FileNotFoundError / except ValueError` handler of the
three commands, mapping a build error to an exit code and a stderr line. -/
def mapBuildErr : BuildErr → Nat × String
  | .notFound m => (EXIT_PRECONDITION_FAILED, "FAILED code=3 msg=" ++ m)
  | .valueError m =>
    if leadsWith "secret_detection_failed:".data m.data then
      let findings := (splitSemis (afterColon m)).filter (fun f => f ≠ "")
      (EXIT_VALIDATION_FAILED,
       "FAILED code=4 msg=" ++ secretFailureMessage (sortStrings findings))
    else (EXIT_VALIDATION_FAILED, "FAILED code=4 msg=" ++ m)

/-- The output directory: existence flag plus file contents by relative
path. The inputs snapshot in `BuildCfg` is separate, so "unchanged inputs"
is the statement that the same `BuildCfg` is used again. -/
structure OutDir where
  rootExists : Bool
  content : String → Option (List Nat)

def emptyDir : OutDir := ⟨false, fun _ => none⟩

/-- Write one Action's bytes under the output root (creating directories,
hence the root, as a side effect). -/
def writeOne (d : OutDir) (a : Action) : OutDir :=
  ⟨true, fun p => if p = a.rel_path then some a.content_bytes else d.content p⟩

/-- `_write_actions`: write every Action, sorted by path. -/
def writeActions (d : OutDir) (as : List Action) : OutDir :=
  (sortActions as).foldl writeOne d

/-- `_cmd_plan` (result and stderr line; plan never touches the out dir). -/
def cmdPlan (cfg : BuildCfg) : Nat × Option String :=
  match rejectYamlInputs cfg with
  | some r => (EXIT_PRECONDITION_FAILED, some ("FAILED code=3 msg=" ++ r))
  | none =>
    match buildActions cfg with
    | .error e => ((mapBuildErr e).1, some (mapBuildErr e).2)
    | .ok _ => (EXIT_SUCCESS, none)

/-- `_cmd_generate`: exit code, stderr line, resulting out dir. -/
def cmdGenerate (cfg : BuildCfg) (apply dryRun : Bool) (d : OutDir) :
    Nat × Option String × OutDir :=
  if !apply then
    (EXIT_UNSAFE_BLOCKED, some "FAILED code=5 msg=unsafe_operation_blocked_missing_apply", d)
  else
    match rejectYamlInputs cfg with
    | some r => (EXIT_PRECONDITION_FAILED, some ("FAILED code=3 msg=" ++ r), d)
    | none =>
      match buildActions cfg with
      | .error e => ((mapBuildErr e).1, some (mapBuildErr e).2, d)
      | .ok (as, _) =>
        if dryRun then (EXIT_SUCCESS, none, d)
        else (EXIT_SUCCESS, none, writeActions d as)

/-- One `mismatches` record of `_cmd_verify`. -/
structure Mismatch where
  path : String
  expected_sha256 : String
  actual_sha256 : String
deriving DecidableEq, Repr

/-- The structured report `_cmd_verify` prints: `.ok` is
`{"ok": true, "code": "ok"}`, `.missingRoot` is the
`missing_output_root` precondition report, `.missingFiles` is
`{"ok": false, "code": "precondition_failed", "missing": [...]}`,
`.mismatchFiles` is the `validation_failed` report with expected and actual
hash per path, and `.yamlFail`/`.buildFail` are the stderr-only failures. -/
inductive VerifyReport where
  | yamlFail (reason : String)
  | missingRoot
  | buildFail (msg : String)
  | missingFiles (paths : List String)
  | mismatchFiles (ms : List Mismatch)
  | ok
deriving DecidableEq

/-- The Actions whose file under the out root is absent (paths in action
sort order, as in the verify loop). -/
def missingOf (as : List Action) (d : OutDir) : List String :=
  (sortActions as).filterMap (fun a =>
    match d.content a.rel_path with
    | none => some a.rel_path
    | some _ => none)

/-- The Actions present on disk whose hash differs from the recomputed
Action hash. -/
def mismatchOf (as : List Action) (d : OutDir) : List Mismatch :=
  (sortActions as).filterMap (fun a =>
    match d.content a.rel_path with
    | none => none
    | some bs =>
      if sha256hex bs = a.sha256 then none
      else some ⟨a.rel_path, a.sha256, sha256hex bs⟩)

/-- `_cmd_verify`. -/
def cmdVerify (cfg : BuildCfg) (d : OutDir) : Nat × VerifyReport :=
  match rejectYamlInputs cfg with
  | some r => (EXIT_PRECONDITION_FAILED, .yamlFail r)
  | none =>
    if !d.rootExists then (EXIT_PRECONDITION_FAILED, .missingRoot)
    else
      match buildActions cfg with
      | .error e => ((mapBuildErr e).1, .buildFail (mapBuildErr e).2)
      | .ok (as, _) =>
        if missingOf as d ≠ [] then
          (EXIT_PRECONDITION_FAILED, .missingFiles (sortStrings (missingOf as d)))
        else if mismatchOf as d ≠ [] then
          (EXIT_VALIDATION_FAILED, .mismatchFiles (mismatchOf as d))
        else (EXIT_SUCCESS, .ok)

/-! ### Spec-side predicates and statement helpers -/

mutual

/-- Modelled from the spec (claim C7): a document is clean when no object
key matches the key heuristic and no string scalar matches the value
heuristic; the scanner must return the empty list exactly on clean input. -/
def cleanV : Value → Bool
  | .obj kvs => cleanKVs kvs
  | .arr xs => cleanArr xs
  | .str s => !secretValueMatch s
  | _ => true

def cleanKVs : List (String × Value) → Bool
  | [] => true
  | (k, v) :: rest => !keyMatch k && cleanV v && cleanKVs rest

def cleanArr : List Value → Bool
  | [] => true
  | v :: vs => cleanV v && cleanArr vs

end

/-- First binding of a key in an object (Python `obj[k]` for unique keys). -/
def objLookup (v : Value) (k : String) : Option Value :=
  match v with
  | .obj ps => (ps.find? (fun kv => kv.1 == k)).map (fun kv => kv.2)
  | _ => none

/-- The bytes the write loop leaves at path `p`: the last Action in the list
with that path wins. -/
def findLast : List Action → String → Option (List Nat)
  | [], _ => none
  | a :: rest, p =>
    match findLast rest p with
    | some b => some b
    | none => if p = a.rel_path then some a.content_bytes else none

/-- Forget a file's contents, keeping its paths and kind. -/
def eraseEntry (en : FsEntry) : FsEntry :=
  ⟨en.rel, en.isDir, en.repoRel, [], none⟩

/-- Forget every input file's contents: the YAML gate must not depend on
them (it must fire before any file is read). -/
def eraseContents (cfg : BuildCfg) : BuildCfg :=
  ⟨cfg.openapi.map (fun o => ⟨o.pathGiven, o.repoRel, o.fileExists, [], none⟩),
   cfg.schemas.map (fun sd => ⟨sd.pathGiven, sd.rootExists, sd.entries.map eraseEntry⟩),
   cfg.incl, cfg.excl, cfg.redact⟩

/-- Claim C5's trigger: the OpenAPI input path, or some file discovered
under the schema root, has a YAML extension. -/
def YamlCondition (cfg : BuildCfg) : Prop :=
  (∃ o, cfg.openapi = some o ∧ isYamlPath o.pathGiven = true) ∨
  (∃ sd, cfg.schemas = some sd ∧
    ∃ en ∈ walkFiles sd cfg.incl cfg.excl, isYamlPath en.rel = true)

/-- Well-formedness of the snapshot: distinct discovered schema paths (true
of any real directory tree, where `rglob` never lists a path twice). -/
def SchemaRelsNodup (cfg : BuildCfg) : Prop :=
  match cfg.schemas with
  | none => True
  | some sd => ((walkFiles sd cfg.incl cfg.excl).map (fun en => en.rel)).Nodup

/-! ### Concrete inputs used by witnesses and counterexamples -/

/-- C1 witness input: no openapi, no schemas. -/
def c1w_cfg : BuildCfg := ⟨none, none, none, none, false⟩

def c1w_pair : List Action × RunMeta :=
  (buildActions c1w_cfg).toOption.getD ([], ⟨0, 0, 0, false, false⟩)

/-- C1 counterexample input: a `.yaml`-named OpenAPI file whose contents are
valid JSON, so `buildActions` succeeds but the commands stop at the gate. -/
def c1x_cfg : BuildCfg :=
  ⟨some ⟨"openapi.yaml", "openapi.yaml", true, [], some (.obj [])⟩, none, none, none, false⟩

/-- C4 counterexample input: a single secret-like key containing `;`. -/
def c4x_cfg : BuildCfg :=
  ⟨some ⟨"openapi.json", "openapi.json", true, [], some (.obj [("a;password", .null)])⟩,
   none, none, none, false⟩

/-- C4 witness input: a single plain secret-like key. -/
def c4w_cfg : BuildCfg :=
  ⟨some ⟨"openapi.json", "openapi.json", true, [], some (.obj [("password", .null)])⟩,
   none, none, none, false⟩

/-- C5 witness input: one discovered schema file with a YAML extension. -/
def c5w_cfg : BuildCfg :=
  ⟨none, some ⟨"schemas", true, [⟨"x.YML", false, "schemas/x.YML", [], none⟩]⟩,
   none, none, false⟩

/-- C5 counterexample input: a `.yaml` OpenAPI path. -/
def c5x_cfg : BuildCfg :=
  ⟨some ⟨"spec.yaml", "spec.yaml", true, [], some .null⟩, none, none, none, false⟩

/-- C6 witness input: no openapi, no schemas. -/
def c6w_cfg : BuildCfg := ⟨none, none, none, none, false⟩

def c6w_pair : List Action × RunMeta :=
  (buildActions c6w_cfg).toOption.getD ([], ⟨0, 0, 0, false, false⟩)

def c6w_as : List Action := c6w_pair.1

/-- C9 witness entries: one directory, two files. -/
def c9_dir : FsEntry := ⟨"sub", true, "schemas/sub", [], none⟩
def c9_fa : FsEntry := ⟨"a.json", false, "schemas/a.json", [], none⟩
def c9_fb : FsEntry := ⟨"b.json", false, "schemas/b.json", [], none⟩
def c9_sd : SchemaDir := ⟨"schemas", true, [c9_dir, c9_fb, c9_fa]⟩

/-! ## Lemmas about sorting -/

theorem sortStrings_sorted (l : List String) : List.Sorted strLe (sortStrings l) :=
  List.sorted_insertionSort _ l

theorem sortStrings_eq_self {l : List String} (h : List.Sorted strLe l) : sortStrings l = l :=
  h.insertionSort_eq

theorem sortStrings_perm (l : List String) : List.Perm (sortStrings l) l :=
  List.perm_insertionSort _ l

theorem mem_sortStrings {l : List String} {x : String} : x ∈ sortStrings l ↔ x ∈ l :=
  List.mem_insertionSort _

theorem sortStrings_eq_nil_iff {l : List String} : sortStrings l = [] ↔ l = [] := by
  constructor
  · intro h
    have := (sortStrings_perm l).length_eq
    rw [h] at this
    exact List.length_eq_zero.mp this.symm
  · intro h; rw [h]; rfl

theorem sortPairs_sorted {β : Type} (l : List (String × β)) :
    List.Pairwise keyLe (sortPairs l) :=
  List.sorted_insertionSort _ l

theorem sortPairs_perm {β : Type} (l : List (String × β)) : List.Perm (sortPairs l) l :=
  List.perm_insertionSort _ l

theorem sortPairs_eq_self {β : Type} {l : List (String × β)}
    (h : List.Pairwise keyLe l) : sortPairs l = l :=
  List.Sorted.insertionSort_eq h

theorem sortPairs_idem {β : Type} (l : List (String × β)) :
    sortPairs (sortPairs l) = sortPairs l :=
  sortPairs_eq_self (sortPairs_sorted l)

theorem mem_sortPairs {β : Type} {l : List (String × β)} {x : String × β} :
    x ∈ sortPairs l ↔ x ∈ l :=
  List.mem_insertionSort _

theorem sortActions_perm (l : List Action) : List.Perm (sortActions l) l :=
  List.perm_insertionSort _ l

theorem mem_sortActions {l : List Action} {a : Action} : a ∈ sortActions l ↔ a ∈ l :=
  List.mem_insertionSort _

/-! ## The OpenAPI Canonicalizer is idempotent (C2) -/

theorem normArr_eq_map (ext : Bool) (xs : List Value) : normArr ext xs = xs.map (normV ext) := by
  induction xs with
  | nil => rfl
  | cons v vs ih => rw [normArr, ih, List.map_cons]

theorem normKVs_mem {ext : Bool} {l : List (String × Value)} {x : String × Value}
    (hx : x ∈ normKVs ext l) :
    ∃ y ∈ l, x = (y.1, normV ext y.2) ∧ y.1 ≠ "examples" ∧
      (y.1.startsWith "x-" && !ext) = false := by
  induction l with
  | nil => simp [normKVs] at hx
  | cons kv rest ih =>
    obtain ⟨k, v⟩ := kv
    by_cases h1 : k = "examples"
    · rw [normKVs, if_pos h1] at hx
      obtain ⟨y, hy, hrest⟩ := ih hx
      exact ⟨y, List.mem_cons_of_mem _ hy, hrest⟩
    · by_cases h2 : (k.startsWith "x-" && !ext) = true
      · rw [normKVs, if_neg h1, if_pos h2] at hx
        obtain ⟨y, hy, hrest⟩ := ih hx
        exact ⟨y, List.mem_cons_of_mem _ hy, hrest⟩
      · rw [normKVs, if_neg h1, if_neg h2] at hx
        rcases List.mem_cons.mp hx with h | h
        · exact ⟨(k, v), List.mem_cons_self _ _,
            h, h1, Bool.not_eq_true _ ▸ h2⟩
        · obtain ⟨y, hy, hrest⟩ := ih h
          exact ⟨y, List.mem_cons_of_mem _ hy, hrest⟩

theorem normKVs_eq_self {ext : Bool} {m : List (String × Value)}
    (h : ∀ x ∈ m, x.1 ≠ "examples" ∧ (x.1.startsWith "x-" && !ext) = false ∧
      normV ext x.2 = x.2) :
    normKVs ext m = m := by
  induction m with
  | nil => rfl
  | cons kv rest ih =>
    obtain ⟨hk1, hk2, hv⟩ := h kv (List.mem_cons_self _ _)
    obtain ⟨k, v⟩ := kv
    rw [normKVs, if_neg hk1, if_neg (by simp_all), hv,
      ih (fun x hx => h x (List.mem_cons_of_mem _ hx))]

theorem normV_idem (ext : Bool) : ∀ v, normV ext (normV ext v) = normV ext v := by
  intro v
  induction v using Value.recOnMem with
  | hnull => rfl
  | hbool b => rfl
  | hnum n => rfl
  | hstr s => rfl
  | harr xs ih =>
    simp only [normV, normArr_eq_map, List.map_map]
    congr 1
    exact List.map_congr_left (fun v hv => ih v hv)
  | hobj kvs ih =>
    simp only [normV]
    congr 1
    have hfix : normKVs ext (sortPairs (normKVs ext kvs)) = sortPairs (normKVs ext kvs) := by
      apply normKVs_eq_self
      intro x hx
      obtain ⟨y, hy, hxy, h1, h2⟩ := normKVs_mem (mem_sortPairs.mp hx)
      subst hxy
      exact ⟨h1, h2, ih y hy⟩
    rw [hfix, sortPairs_idem]

/-! ## The Redactor is idempotent (C10) -/

theorem redactArr_eq_map (xs : List Value) : redactArr xs = xs.map redactV := by
  induction xs with
  | nil => rfl
  | cons v vs ih => rw [redactArr, ih, List.map_cons]

theorem redactKVs_eq_map (l : List (String × Value)) :
    redactKVs l = l.map (fun kv =>
      (kv.1, if keyMatch kv.1 then Value.str "<redacted>" else redactV kv.2)) := by
  induction l with
  | nil => rfl
  | cons kv rest ih =>
    obtain ⟨k, v⟩ := kv
    rw [redactKVs, ih, List.map_cons]

theorem secretValueMatch_marker : secretValueMatch "<redacted>" = false := by decide

theorem redactV_marker : redactV (.str "<redacted>") = .str "<redacted>" := by
  rw [redactV, secretValueMatch_marker]
  rfl

theorem redactKVs_eq_self {m : List (String × Value)}
    (h : ∀ x ∈ m, (keyMatch x.1 = true → x.2 = Value.str "<redacted>") ∧
      (keyMatch x.1 = false → redactV x.2 = x.2)) :
    redactKVs m = m := by
  induction m with
  | nil => rfl
  | cons kv rest ih =>
    obtain ⟨h1, h2⟩ := h kv (List.mem_cons_self _ _)
    obtain ⟨k, v⟩ := kv
    rw [redactKVs, ih (fun x hx => h x (List.mem_cons_of_mem _ hx))]
    by_cases hk : keyMatch k = true
    · rw [if_pos hk, ← h1 hk]
    · rw [if_neg hk, h2 (Bool.not_eq_true _ ▸ hk)]

theorem redactV_idem : ∀ v, redactV (redactV v) = redactV v := by
  intro v
  induction v using Value.recOnMem with
  | hnull => rfl
  | hbool b => rfl
  | hnum n => rfl
  | hstr s =>
    by_cases hm : secretValueMatch s = true
    · rw [redactV, if_pos hm, redactV_marker]
    · rw [redactV, if_neg hm, redactV, if_neg hm]
  | harr xs ih =>
    simp only [redactV, redactArr_eq_map, List.map_map]
    congr 1
    exact List.map_congr_left (fun v hv => ih v hv)
  | hobj kvs ih =>
    simp only [redactV]
    congr 1
    have hfix : redactKVs (sortPairs (redactKVs kvs)) = sortPairs (redactKVs kvs) := by
      apply redactKVs_eq_self
      intro x hx
      have hx2 : x ∈ redactKVs kvs := mem_sortPairs.mp hx
      rw [redactKVs_eq_map] at hx2
      obtain ⟨y, hy, hxy⟩ := List.mem_map.mp hx2
      subst hxy
      constructor
      · intro hk
        simp [hk]
      · intro hk
        simp only at hk
        simp [hk]
        exact ih y hy
    rw [hfix, sortPairs_idem]

/-! ## The Secret Scanner (C7) -/

theorem scanKVs_nil_iff (kvs : List (String × Value))
    (ih : ∀ kv ∈ kvs, ∀ path, scanV kv.2 path = [] ↔ cleanV kv.2 = true) :
    ∀ path, (scanKVs kvs path = [] ↔ cleanKVs kvs = true) := by
  induction kvs with
  | nil => intro path; simp [scanKVs, cleanKVs]
  | cons kv rest ihl =>
    intro path
    obtain ⟨k, v⟩ := kv
    by_cases hk : keyMatch k = true
    · simp [scanKVs, cleanKVs, hk]
    · simp [scanKVs, cleanKVs, hk,
        ih (k, v) (List.mem_cons_self _ _) (path ++ "/" ++ k),
        ihl (fun kv hkv => ih kv (List.mem_cons_of_mem _ hkv)) path]

theorem scanArr_nil_iff (xs : List Value)
    (ih : ∀ v ∈ xs, ∀ path, scanV v path = [] ↔ cleanV v = true) :
    ∀ path i, (scanArr xs path i = [] ↔ cleanArr xs = true) := by
  induction xs with
  | nil => intro path i; simp [scanArr, cleanArr]
  | cons v vs ihl =>
    intro path i
    simp [scanArr, cleanArr, ih v (List.mem_cons_self _ _) _,
      ihl (fun w hw => ih w (List.mem_cons_of_mem _ hw)) path (i + 1)]

theorem scanV_nil_iff : ∀ (v : Value) (path : String),
    scanV v path = [] ↔ cleanV v = true := by
  intro v
  induction v using Value.recOnMem with
  | hnull => intro path; simp [scanV, cleanV]
  | hbool b => intro path; simp [scanV, cleanV]
  | hnum n => intro path; simp [scanV, cleanV]
  | hstr s =>
    intro path
    by_cases hm : secretValueMatch s = true <;> simp [scanV, cleanV, hm]
  | harr xs ih => intro path; exact scanArr_nil_iff xs ih path 0
  | hobj kvs ih => intro path; exact scanKVs_nil_iff kvs ih path

theorem scanKVs_mem_key {kvs : List (String × Value)} {k : String} {x : Value} {path : String}
    (hk : keyMatch k = true) (hmem : (k, x) ∈ kvs) :
    ("secret_like_key:" ++ path ++ "/" ++ k) ∈ scanKVs kvs path := by
  induction kvs with
  | nil => cases hmem
  | cons kv rest ih =>
    rcases List.mem_cons.mp hmem with h | h
    · rw [← h, scanKVs]
      simp [hk]
    · obtain ⟨k0, v0⟩ := kv
      rw [scanKVs]
      exact List.mem_append_right _ (ih h)

/-! ## The Redactor contract (C8) -/

theorem lookup_all_marker {l : List (String × Value)} {k : String}
    (hall : ∀ kv ∈ l, kv.1 = k → kv.2 = Value.str "<redacted>")
    (hex : ∃ kv ∈ l, kv.1 = k) :
    ((l.find? (fun kv => kv.1 == k)).map (fun kv => kv.2)) = some (Value.str "<redacted>") := by
  induction l with
  | nil => obtain ⟨kv, h, _⟩ := hex; cases h
  | cons a rest ih =>
    by_cases ha : a.1 = k
    · simp [List.find?, ha, hall a (List.mem_cons_self _ _) ha]
    · rw [List.find?_cons_of_neg _ (by simp [ha])]
      apply ih (fun kv h hk => hall kv (List.mem_cons_of_mem _ h) hk)
      obtain ⟨kv, hm, hk⟩ := hex
      rcases List.mem_cons.mp hm with h | h
      · exact absurd (h ▸ hk) ha
      · exact ⟨kv, h, hk⟩

theorem redactObj_lookup {kvs : List (String × Value)} {k : String}
    (hk : keyMatch k = true) (hex : ∃ x, (k, x) ∈ kvs) :
    objLookup (redactV (.obj kvs)) k = some (.str "<redacted>") := by
  rw [redactV, objLookup]
  apply lookup_all_marker
  · intro kv hkv hkey
    have hkv2 : kv ∈ redactKVs kvs := mem_sortPairs.mp hkv
    rw [redactKVs_eq_map] at hkv2
    obtain ⟨y, hy, hxy⟩ := List.mem_map.mp hkv2
    subst hxy
    simp only at hkey ⊢
    rw [if_pos (hkey ▸ hk)]
  · obtain ⟨x, hx⟩ := hex
    refine ⟨(k, Value.str "<redacted>"), ?_, rfl⟩
    apply mem_sortPairs.mpr
    rw [redactKVs_eq_map]
    have := List.mem_map_of_mem
      (fun kv => (kv.1, if keyMatch kv.1 then Value.str "<redacted>" else redactV kv.2)) hx
    simpa [hk] using this

/-! ## Claims C2, C7, C8, C10 -/

/-- C2: the OpenAPI canonicalizer is idempotent: for every Value and every
setting of includeVendorExtensions, applying `normV` (which sorts object
keys, drops `examples` keys and drops `x-` keys unless vendor extensions are
retained, recursing into arrays in order) twice gives the same result as
applying it once. -/
theorem claim_C2 : ∀ (ext : Bool) (v : Value), normV ext (normV ext v) = normV ext v :=
  fun ext v => normV_idem ext v

/-- C10: the redactor is idempotent: redacting a redacted document changes
nothing — the marker does not match the secret-value pattern, keys matching
the key heuristic map to the marker again, and the key-sorted ordering of
the first pass is preserved by the second. -/
theorem claim_C10 : ∀ v : Value, redactV (redactV v) = redactV v :=
  fun v => redactV_idem v

/-- C7: the scanner returns a sorted list of findings; the list is empty
exactly when no object key matches the key heuristic and no string scalar
matches the value pattern; every top-level object key matching the key
heuristic is reported as `secret_like_key:$/<key>`; and scanning
`{"password": "hunter2"}` yields exactly `["secret_like_key:$/password"]`. -/
theorem claim_C7 :
    (∀ v : Value, List.Sorted strLe (detectSecrets v)) ∧
    (∀ v : Value, detectSecrets v = [] ↔ cleanV v = true) ∧
    (∀ (kvs : List (String × Value)) (k : String) (x : Value),
      keyMatch k = true → (k, x) ∈ kvs →
      ("secret_like_key:$/" ++ k) ∈ detectSecrets (.obj kvs)) ∧
    detectSecrets (.obj [("password", .str "hunter2")]) = ["secret_like_key:$/password"] := by
  refine ⟨fun v => sortStrings_sorted _, fun v => ?_, fun kvs k x hk hmem => ?_, by decide⟩
  · rw [detectSecrets, sortStrings_eq_nil_iff]
    exact scanV_nil_iff v "$"
  · rw [detectSecrets]
    apply mem_sortStrings.mpr
    exact @scanKVs_mem_key _ _ _ "$" hk hmem

/-- C8: redaction replaces the whole value of every key matching the key
heuristic with the fixed marker (discarding nested structure), replaces
matching string scalars wholesale, leaves other scalars unchanged, maps
arrays element-wise preserving order, and maps `{"password": "hunter2"}` to
`{"password": "<redacted>"}`. -/
theorem claim_C8 :
    (∀ (kvs : List (String × Value)) (k : String), keyMatch k = true →
      (∃ x, (k, x) ∈ kvs) → objLookup (redactV (.obj kvs)) k = some (.str "<redacted>")) ∧
    (∀ s, secretValueMatch s = true → redactV (.str s) = .str "<redacted>") ∧
    (∀ s, secretValueMatch s = false → redactV (.str s) = .str s) ∧
    (∀ xs, redactV (.arr xs) = .arr (xs.map redactV)) ∧
    redactV .null = .null ∧
    (∀ b, redactV (.bool b) = .bool b) ∧
    (∀ n, redactV (.num n) = .num n) ∧
    redactV (.obj [("password", .str "hunter2")]) = .obj [("password", .str "<redacted>")] := by
  refine ⟨fun kvs k hk hex => redactObj_lookup hk hex,
    fun s hs => ?_, fun s hs => ?_, fun xs => ?_, rfl, fun b => rfl, fun n => rfl, ?_⟩
  · rw [redactV, if_pos hs]
  · rw [redactV, if_neg (by simp [hs])]
  · rw [redactV, redactArr_eq_map]
  · rfl

/-- Witness for C7 at concrete inputs. -/
theorem claim_C7_witness :
    detectSecrets (.obj [("a", .null)]) = [] ∧
    ("secret_like_key:$/password" : String) ∈ detectSecrets (.obj [("password", .str "x")]) := by
  constructor
  · exact (claim_C7.2.1 (.obj [("a", .null)])).mpr (by decide)
  · exact claim_C7.2.2.1 [("password", .str "x")] "password" (.str "x") (by decide)
      (List.mem_cons_self _ _)

/-- Witness for C8 at concrete inputs. -/
theorem claim_C8_witness :
    objLookup (redactV (.obj [("b", .null), ("password", .str "hunter2")])) "password"
      = some (.str "<redacted>") ∧
    redactV (.str "bearer abc") = .str "<redacted>" := by
  constructor
  · exact claim_C8.1 _ "password" (by decide)
      ⟨.str "hunter2", List.mem_cons_of_mem _ (List.mem_cons_self _ _)⟩
  · exact claim_C8.2.1 _ (by decide)

/-! ## File Discovery (C9) -/

/-- C9: `walkFiles` returns the empty list (not an error) when the root does
not exist; its result is sorted lexicographically by relative path; and an
entry is returned exactly when the root exists, the entry is a regular file
(directories are skipped), it passes the include filter when one is given
(fail closed), and it is not matched by the exclude filter when one is
given (deny after include). -/
theorem claim_C9 : ∀ (sd : SchemaDir) (inc exc : Option (String → Bool)),
    (sd.rootExists = false → walkFiles sd inc exc = []) ∧
    List.Sorted strLe ((walkFiles sd inc exc).map (fun en => en.rel)) ∧
    (∀ en : FsEntry, en ∈ walkFiles sd inc exc ↔
      sd.rootExists = true ∧ en ∈ sd.entries ∧ en.isDir = false ∧
      (∀ f, inc = some f → f en.rel = true) ∧
      (∀ g, exc = some g → g en.rel = false)) := by
  intro sd inc exc
  refine ⟨fun h => by simp [walkFiles, h], ?_, ?_⟩
  · by_cases h : sd.rootExists
    · rw [walkFiles, if_pos h]
      have hs : List.Pairwise entryLe (List.insertionSort entryLe sd.entries) :=
        List.sorted_insertionSort _ _
      exact (hs.filter _).map _ (fun a b hab => hab)
    · simp [walkFiles, h]
  · intro en
    by_cases h : sd.rootExists
    · simp only [walkFiles, if_pos h, List.mem_filter, List.mem_insertionSort,
        Bool.and_eq_true, Bool.not_eq_true']
      constructor
      · rintro ⟨hmem, ⟨hdir, hA⟩, hB⟩
        refine ⟨h, hmem, hdir, ?_, ?_⟩
        · intro f hf; subst hf; simpa using hA
        · intro g hg; subst hg; simpa using hB
      · rintro ⟨_, hmem, hdir, hinc, hexc⟩
        refine ⟨hmem, ⟨hdir, ?_⟩, ?_⟩
        · cases inc with
          | none => rfl
          | some f => simpa using hinc f rfl
        · cases exc with
          | none => rfl
          | some g => simpa using hexc g rfl
    · simp [walkFiles, h]

/-- Witness for C9 at concrete inputs. -/
theorem claim_C9_witness :
    walkFiles ⟨"s", false, [c9_fa]⟩ none none = [] ∧
    (walkFiles c9_sd none none).map (fun en => en.rel) = ["a.json", "b.json"] ∧
    c9_fa ∈ walkFiles c9_sd (some (fun s => s != "b.json")) none := by
  refine ⟨(claim_C9 ⟨"s", false, [c9_fa]⟩ none none).1 rfl, by decide, ?_⟩
  refine ((claim_C9 c9_sd (some (fun s => s != "b.json")) none).2.2 c9_fa).mpr
    ⟨rfl, ?_, rfl, ?_, ?_⟩
  · exact List.mem_cons_of_mem _ (List.mem_cons_of_mem _ (List.mem_cons_self _ _))
  · intro f hf
    cases hf
    decide
  · intro g hg
    cases hg

/-! ## The Canonical Serializer (C3) -/

theorem encArr_eq_map (p : Bool) (d : Nat) (xs : List Value) :
    encArr p d xs = xs.map (encV p d) := by
  induction xs with
  | nil => rfl
  | cons v vs ih => rw [encArr, ih, List.map_cons]

theorem encKVs_eq_map (p : Bool) (d : Nat) (kvs : List (String × Value)) :
    encKVs p d kvs = kvs.map (fun kv => (kv.1, encV p d kv.2)) := by
  induction kvs with
  | nil => rfl
  | cons kv rest ih =>
    obtain ⟨k, v⟩ := kv
    rw [encKVs, ih, List.map_cons]

theorem csortArr_eq_map (xs : List Value) : csortArr xs = xs.map csortV := by
  induction xs with
  | nil => rfl
  | cons v vs ih => rw [csortArr, ih, List.map_cons]

theorem csortKVs_eq_map (kvs : List (String × Value)) :
    csortKVs kvs = kvs.map (fun kv => (kv.1, csortV kv.2)) := by
  induction kvs with
  | nil => rfl
  | cons kv rest ih =>
    obtain ⟨k, v⟩ := kv
    rw [csortKVs, ih, List.map_cons]

theorem sortPairs_map_val {β γ : Type} (g : β → γ) (l : List (String × β)) :
    sortPairs (l.map (fun kv => (kv.1, g kv.2))) = (sortPairs l).map (fun kv => (kv.1, g kv.2)) :=
  (List.map_insertionSort keyLe keyLe (fun kv => (kv.1, g kv.2)) l (fun _ _ _ _ => Iff.rfl)).symm

theorem encV_csort (p : Bool) : ∀ v d, encV p d (csortV v) = encV p d v := by
  intro v
  induction v using Value.recOnMem with
  | hnull => intro d; rfl
  | hbool b => intro d; rfl
  | hnum n => intro d; rfl
  | hstr s => intro d; rfl
  | harr xs ih =>
    intro d
    have h : encArr p (d + 1) (csortArr xs) = encArr p (d + 1) xs := by
      rw [csortArr_eq_map, encArr_eq_map, encArr_eq_map, List.map_map]
      exact List.map_congr_left (fun v hv => ih v hv (d + 1))
    simp only [csortV, encV, h]
  | hobj kvs ih =>
    intro d
    have h : sortPairs (encKVs p (d + 1) (sortPairs (csortKVs kvs)))
        = sortPairs (encKVs p (d + 1) kvs) := by
      rw [encKVs_eq_map, encKVs_eq_map, sortPairs_map_val, sortPairs_idem,
        ← sortPairs_map_val, csortKVs_eq_map, List.map_map]
      congr 1
      exact List.map_congr_left (fun kv hkv => by
        simp only [Function.comp]
        rw [ih kv hkv (d + 1)])
    simp only [csortV, encV, h]

theorem getLast?_ne_of_all {l : List Char} {c0 : Char} (h : ∀ c ∈ l, c ≠ c0) :
    l.getLast? ≠ some c0 := by
  induction l with
  | nil => simp
  | cons a t ih =>
    cases t with
    | nil =>
      simp only [List.getLast?_singleton]
      intro he
      exact h a (List.mem_cons_self _ _) (Option.some.inj he)
    | cons b t2 =>
      rw [List.getLast?_cons_cons]
      exact ih (fun c hc => h c (List.mem_cons_of_mem _ hc))

theorem strLast_append (s t : String) (h : t.data ≠ []) :
    (s ++ t).data.getLast? = t.data.getLast? := by
  rw [String.data_append, List.getLast?_append]
  cases ht : t.data.getLast? with
  | none => exact absurd (List.getLast?_eq_none_iff.mp ht) h
  | some c => rfl

theorem digit_toNat {k : Nat} (hk : k < 10) : (Char.ofNat (48 + k)).toNat = 48 + k := by
  interval_cases k <;> decide

theorem natDigitsAux_digit :
    ∀ fuel n c, c ∈ natDigitsAux fuel n → 48 ≤ c.toNat ∧ c.toNat ≤ 57 := by
  intro fuel
  induction fuel with
  | zero => intro n c h; cases h
  | succ f ih =>
    intro n c h
    cases n with
    | zero => cases h
    | succ m =>
      rw [show natDigitsAux (f + 1) (m + 1)
          = natDigitsAux f ((m + 1) / 10) ++ [Char.ofNat (48 + (m + 1) % 10)] from rfl] at h
      rcases List.mem_append.mp h with h | h
      · exact ih _ _ h
      · have hlt : (m + 1) % 10 < 10 := Nat.mod_lt (m + 1) (by decide)
        rw [List.mem_singleton.mp h, digit_toNat hlt]
        omega

theorem natDigitsAux_ne_nil : ∀ fuel n, n ≠ 0 → fuel ≠ 0 → natDigitsAux fuel n ≠ [] := by
  intro fuel n hn hf
  cases fuel with
  | zero => exact absurd rfl hf
  | succ f =>
    cases n with
    | zero => exact absurd rfl hn
    | succ m => simp [natDigitsAux]

theorem natRepr_ne_nil (n : Nat) : (natRepr n).data ≠ [] := by
  by_cases h : n = 0
  · subst h; decide
  · rw [natRepr, if_neg h]
    exact natDigitsAux_ne_nil (n + 1) n h (by omega)

theorem natRepr_last (n : Nat) : (natRepr n).data.getLast? ≠ some (Char.ofNat 10) := by
  by_cases h : n = 0
  · subst h; decide
  · rw [natRepr, if_neg h]
    apply getLast?_ne_of_all
    intro c hc he
    have := natDigitsAux_digit _ _ _ hc
    rw [he] at this
    simp at this

theorem intRepr_last (n : Int) : (intRepr n).data.getLast? ≠ some (Char.ofNat 10) := by
  cases n with
  | ofNat m => exact natRepr_last m
  | negSucc m =>
    rw [intRepr, strLast_append _ _ (natRepr_ne_nil (m + 1))]
    exact natRepr_last (m + 1)

theorem last_append_ne {s t : String} {c0 : Char} (h : t.data ≠ [])
    (h2 : t.data.getLast? ≠ some c0) : (s ++ t).data.getLast? ≠ some c0 := by
  rw [strLast_append s t h]
  exact h2

theorem encV_last (p : Bool) (d : Nat) (v : Value) :
    (encV p d v).data.getLast? ≠ some (Char.ofNat 10) := by
  cases v with
  | null => exact (by decide : ("null" : String).data.getLast? ≠ some (Char.ofNat 10))
  | bool b =>
    cases b
    · exact (by decide : ("false" : String).data.getLast? ≠ some (Char.ofNat 10))
    · exact (by decide : ("true" : String).data.getLast? ≠ some (Char.ofNat 10))
  | num n => exact intRepr_last n
  | str s =>
    show (("\"" ++ String.join (s.data.map escChar) ++ "\"").data.getLast? ≠ _)
    exact last_append_ne (by decide) (by decide)
  | arr xs =>
    simp only [encV]
    cases hE : encArr p (d + 1) xs with
    | nil => exact (by decide : ("[]" : String).data.getLast? ≠ some (Char.ofNat 10))
    | cons i items =>
      cases p
      · exact last_append_ne (by decide) (by decide)
      · exact last_append_ne (by decide) (by decide)
  | obj kvs =>
    simp only [encV]
    cases hE : sortPairs (encKVs p (d + 1) kvs) with
    | nil => exact (by decide : ("\x7b\x7d" : String).data.getLast? ≠ some (Char.ofNat 10))
    | cons q qs =>
      cases p
      · exact last_append_ne (by decide) (by decide)
      · exact last_append_ne (by decide) (by decide)

theorem escChar_nonAscii {c : Char} (h : 128 ≤ c.toNat) : escChar c = String.singleton c := by
  have h1 : ¬ (c = Char.ofNat 34) := fun he => by rw [he] at h; exact absurd h (by decide)
  have h2 : ¬ (c = Char.ofNat 92) := fun he => by rw [he] at h; exact absurd h (by decide)
  have h3 : ¬ (c = Char.ofNat 10) := fun he => by rw [he] at h; exact absurd h (by decide)
  have h4 : ¬ (c = Char.ofNat 9) := fun he => by rw [he] at h; exact absurd h (by decide)
  have h5 : ¬ (c = Char.ofNat 13) := fun he => by rw [he] at h; exact absurd h (by decide)
  have h6 : ¬ (c.toNat = 8) := by omega
  have h7 : ¬ (c.toNat = 12) := by omega
  have h8 : ¬ (c.toNat < 32) := by omega
  rw [escChar, if_neg h1, if_neg h2, if_neg h3, if_neg h4, if_neg h5,
    if_neg h6, if_neg h7, if_neg h8]

/-- C3: the canonical serializer is a function of the document up to object
key order only — permuting keys anywhere (`csortV`-equal inputs) never
changes the emitted bytes (and, being a function, it is deterministic);
the output is the encoded document plus exactly one trailing newline (the
encoded body never ends in a newline); characters at or above `0x80` pass
through the string escaper unescaped; emitted object keys are in
lexicographic order (`sortPairs` output is sorted, and its pairs are what
the object branch emits); and arrays are encoded element-wise in order. -/
theorem claim_C3 :
    (∀ (p : Bool) (v w : Value), csortV v = csortV w →
      canonicalJsonBytes v p = canonicalJsonBytes w p) ∧
    (∀ (p : Bool) (v : Value), canonicalJsonString v p = encV p 0 v ++ "\n" ∧
      (encV p 0 v).data.getLast? ≠ some (Char.ofNat 10)) ∧
    (∀ c : Char, 128 ≤ c.toNat → escChar c = String.singleton c) ∧
    (∀ (kvs : List (String × String)), List.Pairwise keyLe (sortPairs kvs)) ∧
    (∀ (p : Bool) (d : Nat) (xs : List Value), encArr p d xs = xs.map (encV p d)) := by
  refine ⟨?_, ?_, fun c hc => escChar_nonAscii hc, fun kvs => sortPairs_sorted kvs,
    fun p d xs => encArr_eq_map p d xs⟩
  · intro p v w hvw
    rw [canonicalJsonBytes, canonicalJsonBytes, canonicalJsonString, canonicalJsonString,
      ← encV_csort p v 0, ← encV_csort p w 0, hvw]
  · intro p v
    exact ⟨rfl, encV_last p 0 v⟩

/-- Witness for C3 at concrete inputs: two key orders of the same document
serialize to the same bytes. -/
theorem claim_C3_witness :
    canonicalJsonBytes (.obj [("b", .num 1), ("a", .arr [.obj [("y", .null), ("x", .bool true)]])]) true
      = canonicalJsonBytes (.obj [("a", .arr [.obj [("x", .bool true), ("y", .null)]]), ("b", .num 1)]) true ∧
    canonicalJsonString (.obj [("k", .str "v")]) false
      = encV false 0 (.obj [("k", .str "v")]) ++ "\n" := by
  constructor
  · exact claim_C3.1 true _ _ rfl
  · exact (claim_C3.2.1 false (.obj [("k", .str "v")])).1

/-! ## The YAML gate (C5) -/

theorem walkFiles_rootExists {sd : SchemaDir} {inc exc : Option (String → Bool)} {en : FsEntry}
    (h : en ∈ walkFiles sd inc exc) : sd.rootExists = true := by
  by_cases hr : sd.rootExists
  · exact hr
  · rw [walkFiles, if_neg hr] at h
    cases h

theorem walkFiles_erase (sd : SchemaDir) (inc exc : Option (String → Bool)) :
    walkFiles ⟨sd.pathGiven, sd.rootExists, sd.entries.map eraseEntry⟩ inc exc
      = (walkFiles sd inc exc).map eraseEntry := by
  rw [walkFiles, walkFiles]
  by_cases h : sd.rootExists
  · rw [if_pos h, if_pos h,
      show List.insertionSort entryLe (sd.entries.map eraseEntry)
          = (List.insertionSort entryLe sd.entries).map eraseEntry from
        (List.map_insertionSort entryLe entryLe eraseEntry sd.entries
          (fun _ _ _ _ => Iff.rfl)).symm,
      List.filter_map]
    congr 1
  · rw [if_neg h, if_neg h]
    rfl

theorem rejectYamlSchemas_erase (cfg : BuildCfg) :
    rejectYamlSchemas (eraseContents cfg) = rejectYamlSchemas cfg := by
  cases hs : cfg.schemas with
  | none =>
    simp only [rejectYamlSchemas, hs,
      show (eraseContents cfg).schemas = none by rw [eraseContents, hs]; rfl]
  | some sd =>
    simp only [rejectYamlSchemas, hs,
      show (eraseContents cfg).schemas
          = some ⟨sd.pathGiven, sd.rootExists, sd.entries.map eraseEntry⟩ by
        rw [eraseContents, hs]; rfl,
      show (eraseContents cfg).incl = cfg.incl from rfl,
      show (eraseContents cfg).excl = cfg.excl from rfl,
      walkFiles_erase, List.any_map]
    rfl

theorem rejectYaml_erase (cfg : BuildCfg) :
    rejectYamlInputs (eraseContents cfg) = rejectYamlInputs cfg := by
  cases ho : cfg.openapi with
  | none =>
    simp only [rejectYamlInputs, ho,
      show (eraseContents cfg).openapi = none by rw [eraseContents, ho]; rfl]
    exact rejectYamlSchemas_erase cfg
  | some o =>
    simp only [rejectYamlInputs, ho,
      show (eraseContents cfg).openapi
          = some ⟨o.pathGiven, o.repoRel, o.fileExists, [], none⟩ by
        rw [eraseContents, ho]; rfl]
    by_cases hy : isYamlPath o.pathGiven = true
    · rw [if_pos hy, if_pos hy]
    · rw [if_neg hy, if_neg hy]
      exact rejectYamlSchemas_erase cfg

theorem yamlSchemas_some {cfg : BuildCfg}
    (h : ∃ sd, cfg.schemas = some sd ∧
      ∃ en ∈ walkFiles sd cfg.incl cfg.excl, isYamlPath en.rel = true) :
    rejectYamlSchemas cfg = some "schemas_yaml_not_supported" := by
  obtain ⟨sd, hsd, en, hen, hy⟩ := h
  have hc : (sd.rootExists && (walkFiles sd cfg.incl cfg.excl).any fun en => isYamlPath en.rel)
      = true := by
    rw [Bool.and_eq_true]
    exact ⟨walkFiles_rootExists hen, List.any_eq_true.mpr ⟨en, hen, hy⟩⟩
  simp only [rejectYamlSchemas, hsd]
  rw [if_pos hc]

theorem yamlCondition_reject {cfg : BuildCfg} (h : YamlCondition cfg) :
    ∃ r, rejectYamlInputs cfg = some r := by
  rcases h with ⟨o, ho, hy⟩ | h
  · exact ⟨"openapi_yaml_not_supported", by
      simp only [rejectYamlInputs, ho]; rw [if_pos hy]⟩
  · cases ho : cfg.openapi with
    | none =>
      exact ⟨"schemas_yaml_not_supported", by
        simp only [rejectYamlInputs, ho]; exact yamlSchemas_some h⟩
    | some o =>
      by_cases hyo : isYamlPath o.pathGiven = true
      · exact ⟨"openapi_yaml_not_supported", by
          simp only [rejectYamlInputs, ho]; rw [if_pos hyo]⟩
      · exact ⟨"schemas_yaml_not_supported", by
          simp only [rejectYamlInputs, ho]; rw [if_neg hyo]; exact yamlSchemas_some h⟩

/-- C5 (amended): for `plan`, for `verify`, and for `generate` invoked with
`--apply`, a YAML-extension input (the OpenAPI path or a discovered schema
file) makes the command fail with the precondition exit code 3, leaving the
output directory untouched; the gate's verdict depends only on paths, never
on any file's contents (`eraseContents` invariance); `generate` without
`--apply` instead stops earlier with the unsafe-blocked code 5, also
touching nothing. -/
theorem claim_C5 :
    (∀ cfg, rejectYamlInputs (eraseContents cfg) = rejectYamlInputs cfg) ∧
    (∀ (cfg : BuildCfg) (d : OutDir) (dr : Bool), YamlCondition cfg →
      (cmdPlan cfg).1 = EXIT_PRECONDITION_FAILED ∧
      (cmdVerify cfg d).1 = EXIT_PRECONDITION_FAILED ∧
      (cmdGenerate cfg true dr d).1 = EXIT_PRECONDITION_FAILED ∧
      (cmdGenerate cfg true dr d).2.2 = d ∧
      cmdGenerate cfg false dr d
        = (EXIT_UNSAFE_BLOCKED,
           some "FAILED code=5 msg=unsafe_operation_blocked_missing_apply", d)) := by
  refine ⟨rejectYaml_erase, ?_⟩
  intro cfg d dr h
  obtain ⟨r, hr⟩ := yamlCondition_reject h
  refine ⟨?_, ?_, ?_, ?_, rfl⟩
  · rw [cmdPlan, hr]
  · rw [cmdVerify, hr]
  · rw [cmdGenerate]
    simp only [Bool.not_true, Bool.false_eq_true, if_false, hr]
  · rw [cmdGenerate]
    simp only [Bool.not_true, Bool.false_eq_true, if_false, hr]

/-- C5 counterexample: the claim as stated quantifies over every command,
but `generate` invoked without `--apply` on a YAML-named OpenAPI input
exits with the unsafe-blocked code 5 (checked before the YAML gate), not
with the precondition code 3. -/
theorem claim_C5_counterexample :
    isYamlPath "spec.yaml" = true ∧
    (cmdGenerate c5x_cfg false false emptyDir).1 = EXIT_UNSAFE_BLOCKED ∧
    (cmdGenerate c5x_cfg false false emptyDir).1 ≠ EXIT_PRECONDITION_FAILED := by
  exact ⟨by decide, rfl, by decide⟩

/-- Witness for C5 at a concrete input: one discovered `.YML` schema file. -/
theorem claim_C5_witness :
    (cmdPlan c5w_cfg).1 = EXIT_PRECONDITION_FAILED ∧
    (cmdVerify c5w_cfg emptyDir).1 = EXIT_PRECONDITION_FAILED ∧
    (cmdGenerate c5w_cfg true false emptyDir).2.2 = emptyDir := by
  have hmem : (⟨"x.YML", false, "schemas/x.YML", [], none⟩ : FsEntry)
      ∈ walkFiles ⟨"schemas", true, [⟨"x.YML", false, "schemas/x.YML", [], none⟩]⟩ none none := by
    rw [show walkFiles ⟨"schemas", true, [⟨"x.YML", false, "schemas/x.YML", [], none⟩]⟩ none none
        = [⟨"x.YML", false, "schemas/x.YML", [], none⟩] from rfl]
    exact List.mem_cons_self _ _
  have h := claim_C5.2 c5w_cfg emptyDir false
    (Or.inr ⟨_, rfl, ⟨"x.YML", false, "schemas/x.YML", [], none⟩, hmem, by decide⟩)
  exact ⟨h.1, h.2.1, h.2.2.2.1⟩

/-! ## Secret-detection failure reporting (C4) -/

theorem strMkData (s : String) : String.mk s.data = s := rfl

theorem leadsWith_refl_append : ∀ (xs t : List Char), leadsWith xs (xs ++ t) = true := by
  intro xs t
  induction xs with
  | nil => rfl
  | cons a as ih => simp [leadsWith, ih]

theorem afterColonChars_append {a : List Char} (h : ∀ c ∈ a, c ≠ ':') :
    ∀ t, afterColonChars (a ++ ':' :: t) = t := by
  induction a with
  | nil => intro t; rfl
  | cons c rest ih =>
    intro t
    rw [List.cons_append, afterColonChars,
      if_neg (h c (List.mem_cons_self _ _)),
      ih (fun x hx => h x (List.mem_cons_of_mem _ hx)) t]

theorem splitSemisChars_no {cs : List Char} (h : ∀ c ∈ cs, c ≠ ';') :
    splitSemisChars cs = [cs] := by
  induction cs with
  | nil => rfl
  | cons c rest ih =>
    rw [splitSemisChars]
    simp only [if_neg (h c (List.mem_cons_self _ _)),
      ih (fun x hx => h x (List.mem_cons_of_mem _ hx))]

theorem splitSemisChars_append {a : List Char} (h : ∀ c ∈ a, c ≠ ';') :
    ∀ t, splitSemisChars (a ++ ';' :: t) = a :: splitSemisChars t := by
  induction a with
  | nil => intro t; simp [splitSemisChars]
  | cons c rest ih =>
    intro t
    rw [List.cons_append, splitSemisChars]
    simp only [if_neg (h c (List.mem_cons_self _ _)),
      ih (fun x hx => h x (List.mem_cons_of_mem _ hx)) t]

theorem data_append_semi (x j : String) :
    (x ++ ";" ++ j).data = x.data ++ ';' :: j.data := by
  rw [String.data_append, String.data_append,
    show (";" : String).data = [';'] from rfl, List.append_assoc]
  rfl

theorem splitSemis_join : ∀ {fs : List String}, fs ≠ [] →
    (∀ f ∈ fs, ∀ c ∈ f.data, c ≠ ';') → splitSemis (joinSep ";" fs) = fs := by
  intro fs
  induction fs with
  | nil => intro h; exact absurd rfl h
  | cons x rest ih =>
    intro _ hcl
    cases rest with
    | nil =>
      rw [joinSep, splitSemis,
        splitSemisChars_no (hcl x (List.mem_cons_self _ _)), List.map_cons]
      rfl
    | cons y r =>
      rw [joinSep, splitSemis, data_append_semi,
        splitSemisChars_append (hcl x (List.mem_cons_self _ _)), List.map_cons, strMkData]
      have := ih (by simp) (fun f hf => hcl f (List.mem_cons_of_mem _ hf))
      rw [splitSemis] at this
      rw [this]

theorem string_head_append_ne_empty (lit rest : String) (h : lit.data ≠ []) :
    lit ++ rest ≠ "" := by
  intro he
  apply h
  have h2 : (lit ++ rest).data = [] := by rw [he]
  rw [String.data_append] at h2
  exact (List.append_eq_nil.mp h2).1

theorem scanKVs_ne_empty (kvs : List (String × Value))
    (ih : ∀ kv ∈ kvs, ∀ path f, f ∈ scanV kv.2 path → f ≠ "") :
    ∀ path f, f ∈ scanKVs kvs path → f ≠ "" := by
  induction kvs with
  | nil => intro path f hf; cases hf
  | cons kv rest ihl =>
    intro path f hf
    obtain ⟨k, v⟩ := kv
    rw [scanKVs] at hf
    rcases List.mem_append.mp hf with hf | hf
    · rcases List.mem_append.mp hf with hf | hf
      · by_cases hk : keyMatch k = true
        · rw [if_pos hk] at hf
          rw [List.mem_singleton.mp hf, String.append_assoc, String.append_assoc]
          exact string_head_append_ne_empty _ _ (by decide)
        · rw [if_neg hk] at hf; cases hf
      · exact ih (k, v) (List.mem_cons_self _ _) _ f hf
    · exact ihl (fun kv hkv => ih kv (List.mem_cons_of_mem _ hkv)) path f hf

theorem scanArr_ne_empty (xs : List Value)
    (ih : ∀ v ∈ xs, ∀ path f, f ∈ scanV v path → f ≠ "") :
    ∀ path i f, f ∈ scanArr xs path i → f ≠ "" := by
  induction xs with
  | nil => intro path i f hf; cases hf
  | cons v vs ihl =>
    intro path i f hf
    rw [scanArr] at hf
    rcases List.mem_append.mp hf with hf | hf
    · exact ih v (List.mem_cons_self _ _) _ f hf
    · exact ihl (fun w hw => ih w (List.mem_cons_of_mem _ hw)) path (i + 1) f hf

theorem scanV_ne_empty : ∀ (v : Value) (path f : String), f ∈ scanV v path → f ≠ "" := by
  intro v
  induction v using Value.recOnMem with
  | hnull => intro path f hf; cases hf
  | hbool b => intro path f hf; cases hf
  | hnum n => intro path f hf; cases hf
  | hstr s =>
    intro path f hf
    rw [scanV] at hf
    by_cases hm : secretValueMatch s = true
    · rw [if_pos hm] at hf
      rw [List.mem_singleton.mp hf]
      exact string_head_append_ne_empty _ _ (by decide)
    · rw [if_neg hm] at hf; cases hf
  | harr xs ih => exact fun path f hf => scanArr_ne_empty xs ih path 0 f hf
  | hobj kvs ih => exact fun path f hf => scanKVs_ne_empty kvs ih path f hf

theorem detectSecrets_ne_empty {v : Value} {f : String} (hf : f ∈ detectSecrets v) : f ≠ "" :=
  scanV_ne_empty v "$" f (mem_sortStrings.mp hf)

theorem mapBuildErr_secret {fs : List String} (hne : fs ≠ [])
    (hcl : ∀ f ∈ fs, ∀ c ∈ f.data, c ≠ ';')
    (hnemem : ∀ f ∈ fs, f ≠ "")
    (hsorted : List.Sorted strLe fs) :
    mapBuildErr (.valueError ("secret_detection_failed:" ++ joinSep ";" fs))
      = (EXIT_VALIDATION_FAILED, "FAILED code=4 msg=" ++ secretFailureMessage fs) := by
  have hlead : leadsWith "secret_detection_failed:".data
      ("secret_detection_failed:" ++ joinSep ";" fs).data = true := by
    rw [String.data_append]
    exact leadsWith_refl_append _ _
  have hafter : afterColon ("secret_detection_failed:" ++ joinSep ";" fs)
      = joinSep ";" fs := by
    rw [afterColon, String.data_append,
      show ("secret_detection_failed:" : String).data
        = "secret_detection_failed".data ++ [':'] from rfl,
      List.append_assoc, List.singleton_append,
      afterColonChars_append (by decide), strMkData]
  rw [mapBuildErr, if_pos hlead, hafter, splitSemis_join hne hcl,
    List.filter_eq_self.mpr (fun f hf => decide_eq_true (hnemem f hf))]
  show (EXIT_VALIDATION_FAILED, "FAILED code=4 msg=" ++ secretFailureMessage (sortStrings fs))
      = (EXIT_VALIDATION_FAILED, "FAILED code=4 msg=" ++ secretFailureMessage fs)
  rw [sortStrings_eq_self hsorted]

theorem openapiStage_ok {cfg : BuildCfg} {o : OpenapiInput} {res}
    (ho : cfg.openapi = some o) (h : openapiStage cfg = .ok res) :
    ∃ ra, processOpenapi cfg.redact o = .ok ra := by
  cases hp : processOpenapi cfg.redact o with
  | error e =>
    simp only [openapiStage, ho, hp] at h
    exact Except.noConfusion h
  | ok ra => exact ⟨ra, rfl⟩

theorem buildPrimary_ok_stages {cfg : BuildCfg} {res}
    (h : buildPrimary cfg = .ok res) :
    ∃ p, openapiStage cfg = .ok p ∧ schemasStage cfg p.1 p.2 = .ok res := by
  cases hp : openapiStage cfg with
  | error e => rw [buildPrimary, hp] at h; cases h
  | ok p =>
    rw [buildPrimary, hp] at h
    exact ⟨p, rfl, h⟩

theorem schemasStage_ok {cfg : BuildCfg} {sd : SchemaDir} {i1 a1 res}
    (hs : cfg.schemas = some sd) (h : schemasStage cfg i1 a1 = .ok res) :
    ∃ pairs, processSchemas cfg.redact (walkFiles sd cfg.incl cfg.excl) = .ok pairs := by
  cases hp : processSchemas cfg.redact (walkFiles sd cfg.incl cfg.excl) with
  | error e =>
    rw [schemasStage, hs] at h
    by_cases hr : sd.rootExists
    · simp only [hr, Bool.not_true, Bool.false_eq_true, if_false, hp] at h
      exact Except.noConfusion h
    · simp only [hr] at h
      simp at h
  | ok pairs => exact ⟨pairs, rfl⟩

theorem processSchemas_ok_each {r : Bool} :
    ∀ {fs : List FsEntry} {pairs}, processSchemas r fs = .ok pairs →
    ∀ f ∈ fs, ∃ x, processSchemaFile r f = .ok x := by
  intro fs
  induction fs with
  | nil => intro pairs _ f hf; cases hf
  | cons g rest ih =>
    intro pairs h f hf
    cases hg : processSchemaFile r g with
    | error e => rw [processSchemas, hg] at h; cases h
    | ok x =>
      rcases List.mem_cons.mp hf with rfl | hf
      · exact ⟨x, hg⟩
      · cases hr : processSchemas r rest with
        | error e => rw [processSchemas, hg, hr] at h; cases h
        | ok xs => exact ih hr f hf

theorem processOpenapi_ok_clean {r : Bool} {o : OpenapiInput} {v : Value} {ra}
    (hj : o.json = some v) (h : processOpenapi r o = .ok ra) :
    ¬(detectSecrets v ≠ [] ∧ r = false) := by
  intro hcon
  rw [processOpenapi] at h
  by_cases hex : o.fileExists
  · simp only [hex, Bool.not_true, Bool.false_eq_true, if_false, hj] at h
    rw [if_pos hcon] at h
    cases h
  · simp only [hex] at h
    simp at h

theorem processSchemaFile_ok_clean {r : Bool} {f : FsEntry} {v : Value} {x}
    (hj : f.json = some v) (h : processSchemaFile r f = .ok x) :
    ¬(detectSecrets v ≠ [] ∧ r = false) := by
  intro hcon
  simp only [processSchemaFile, hj] at h
  rw [if_pos hcon] at h
  cases h

theorem processOpenapi_secret_error {r : Bool} {o : OpenapiInput} {v : Value}
    (hex : o.fileExists = true) (hj : o.json = some v)
    (hr : r = false) (hs : detectSecrets v ≠ []) :
    processOpenapi r o
      = .error (.valueError ("secret_detection_failed:" ++ joinSep ";" (detectSecrets v))) := by
  rw [processOpenapi]
  simp only [hex, Bool.not_true, Bool.false_eq_true, if_false, hj]
  rw [if_pos ⟨hs, hr⟩]

theorem buildActions_openapi_secret {cfg : BuildCfg} {o : OpenapiInput} {v : Value}
    (ho : cfg.openapi = some o) (hex : o.fileExists = true) (hj : o.json = some v)
    (hr : cfg.redact = false) (hs : detectSecrets v ≠ []) :
    buildActions cfg
      = .error (.valueError ("secret_detection_failed:" ++ joinSep ";" (detectSecrets v))) := by
  have hp := processOpenapi_secret_error hex hj hr hs
  rw [buildActions, buildPrimary]
  simp only [openapiStage, ho, hp]

theorem buildActions_ok_primary {cfg : BuildCfg} {res}
    (h : buildActions cfg = .ok res) : ∃ p, buildPrimary cfg = .ok p := by
  cases hp : buildPrimary cfg with
  | error e =>
    simp only [buildActions, hp] at h
    exact Except.noConfusion h
  | ok p => exact ⟨p, rfl⟩

/-- C4 (amended): a non-empty finding list on any input with redaction off
always fails the whole build (first two parts); when the OpenAPI input is
the offending one, the build error carries the `;`-joined findings, and the
commands that reach the build map it to exit code 4: plan, generate with
`--apply` (leaving the output directory untouched), and verify over an
existing output root. Provided no finding contains a semicolon, the
user-visible message reports the exact total count together with the
lexicographically first finding, not the full list. (As stated the claim is
false: a finding containing `;` is re-split in the command layer, inflating
the count and changing the reported first fragment. Generate without
`--apply` exits 5 before building, and verify exits 3 first when the output
root is missing.) -/
theorem claim_C4 :
    (∀ (cfg : BuildCfg) (o : OpenapiInput) (v : Value),
      cfg.redact = false → cfg.openapi = some o → o.json = some v →
      detectSecrets v ≠ [] → (buildActions cfg).isOk = false) ∧
    (∀ (cfg : BuildCfg) (sd : SchemaDir) (en : FsEntry) (v : Value),
      cfg.redact = false → cfg.schemas = some sd →
      en ∈ walkFiles sd cfg.incl cfg.excl → en.json = some v →
      detectSecrets v ≠ [] → (buildActions cfg).isOk = false) ∧
    (∀ (cfg : BuildCfg) (o : OpenapiInput) (v : Value) (d : OutDir),
      cfg.redact = false → cfg.openapi = some o → o.fileExists = true → o.json = some v →
      detectSecrets v ≠ [] → (∀ f ∈ detectSecrets v, ∀ c ∈ f.data, c ≠ ';') →
      rejectYamlInputs cfg = none →
      buildActions cfg = .error (.valueError
        ("secret_detection_failed:" ++ joinSep ";" (detectSecrets v))) ∧
      cmdPlan cfg = (EXIT_VALIDATION_FAILED,
        some ("FAILED code=4 msg=" ++ secretFailureMessage (detectSecrets v))) ∧
      (cmdGenerate cfg true false d).1 = EXIT_VALIDATION_FAILED ∧
      (cmdGenerate cfg true false d).2.2 = d ∧
      (d.rootExists = true → cmdVerify cfg d = (EXIT_VALIDATION_FAILED,
        .buildFail ("FAILED code=4 msg=" ++ secretFailureMessage (detectSecrets v)))) ∧
      secretFailureMessage (detectSecrets v)
        = "secret_detection_failed count=" ++ natRepr (detectSecrets v).length
            ++ " first=" ++ (detectSecrets v).headD "") := by
  refine ⟨?_, ?_, ?_⟩
  · intro cfg o v hr ho hj hs
    cases hb : buildActions cfg with
    | error e => rfl
    | ok res =>
      exfalso
      obtain ⟨p, hp⟩ := buildActions_ok_primary hb
      obtain ⟨q, hq, _⟩ := buildPrimary_ok_stages hp
      obtain ⟨ra, hra⟩ := openapiStage_ok ho hq
      exact processOpenapi_ok_clean hj hra ⟨hs, hr⟩
  · intro cfg sd en v hr hsch hmem hj hsec
    cases hb : buildActions cfg with
    | error e => rfl
    | ok res =>
      exfalso
      obtain ⟨p, hp⟩ := buildActions_ok_primary hb
      obtain ⟨q, hq, hss⟩ := buildPrimary_ok_stages hp
      obtain ⟨pairs, hpairs⟩ := schemasStage_ok hsch hss
      obtain ⟨x, hx⟩ := processSchemas_ok_each hpairs en hmem
      exact processSchemaFile_ok_clean hj hx ⟨hsec, hr⟩
  · intro cfg o v d hr ho hex hj hs hcl hrej
    have hb := buildActions_openapi_secret ho hex hj hr hs
    have hsorted : List.Sorted strLe (detectSecrets v) := sortStrings_sorted (scanV v "$")
    have hmap := mapBuildErr_secret hs hcl
      (fun f hf => detectSecrets_ne_empty hf) hsorted
    refine ⟨hb, ?_, ?_, ?_, ?_, ?_⟩
    · rw [cmdPlan, hrej]
      simp only [hb, hmap]
    · rw [cmdGenerate]
      simp only [Bool.not_true, Bool.false_eq_true, if_false, hrej, hb, hmap]
    · rw [cmdGenerate]
      simp only [Bool.not_true, Bool.false_eq_true, if_false, hrej, hb, hmap]
    · intro hd
      simp only [cmdVerify, hrej, hd, Bool.not_true, Bool.false_eq_true, if_false, hb, hmap]
    · cases hfs : detectSecrets v with
      | nil => exact absurd hfs hs
      | cons f rest => rfl

/-- C4 counterexample: the single finding `secret_like_key:$/a;password`
(one secret-like key containing `;`) is reported by the command layer as
`count=2 first=password` — neither the exact total count (1) nor the
lexicographically first finding. -/
theorem claim_C4_counterexample :
    (detectSecrets (.obj [("a;password", .null)])).length = 1 ∧
    cmdPlan c4x_cfg = (EXIT_VALIDATION_FAILED,
      some "FAILED code=4 msg=secret_detection_failed count=2 first=password") ∧
    secretFailureMessage (detectSecrets (.obj [("a;password", .null)]))
      = "secret_detection_failed count=1 first=secret_like_key:$/a;password" ∧
    (EXIT_VALIDATION_FAILED, some ("FAILED code=4 msg="
        ++ secretFailureMessage (detectSecrets (.obj [("a;password", .null)]))))
      ≠ cmdPlan c4x_cfg := by
  exact ⟨by decide, by decide, by decide, by decide⟩

/-- Witness for C4 at a concrete input without semicolons. -/
theorem claim_C4_witness :
    (buildActions c4w_cfg).isOk = false ∧
    cmdPlan c4w_cfg = (EXIT_VALIDATION_FAILED, some ("FAILED code=4 msg="
      ++ secretFailureMessage (detectSecrets (.obj [("password", .null)])))) ∧
    cmdVerify c4w_cfg ⟨true, fun _ => none⟩ = (EXIT_VALIDATION_FAILED,
      .buildFail ("FAILED code=4 msg="
        ++ secretFailureMessage (detectSecrets (.obj [("password", .null)])))) := by
  refine ⟨?_, ?_, ?_⟩
  · exact claim_C4.1 c4w_cfg _ _ rfl rfl rfl (by decide)
  · exact (claim_C4.2.2 c4w_cfg _ _ emptyDir rfl rfl rfl rfl (by decide)
      (by decide) (by decide)).2.1
  · exact (claim_C4.2.2 c4w_cfg _ _ ⟨true, fun _ => none⟩ rfl rfl rfl rfl (by decide)
      (by decide) (by decide)).2.2.2.2.1 rfl

/-! ## Verify classification (C6) -/

/-- C6: verify reports a missing output root as a precondition failure
(exit 3) without consulting the Action set; with the root present and the
Action set rebuilt, missing files dominate (exit 3, sorted paths), then
hash mismatches (exit 4, expected vs actual hash per path), and a clean
comparison yields `{ok:true,code:"ok"}` with exit 0. -/
theorem claim_C6 :
    (∀ (cfg : BuildCfg) (d : OutDir), rejectYamlInputs cfg = none → d.rootExists = false →
      cmdVerify cfg d = (EXIT_PRECONDITION_FAILED, .missingRoot)) ∧
    (∀ (cfg : BuildCfg) (d : OutDir) (as : List Action) (m : RunMeta),
      rejectYamlInputs cfg = none → d.rootExists = true → buildActions cfg = .ok (as, m) →
      missingOf as d ≠ [] →
      cmdVerify cfg d
        = (EXIT_PRECONDITION_FAILED, .missingFiles (sortStrings (missingOf as d)))) ∧
    (∀ (cfg : BuildCfg) (d : OutDir) (as : List Action) (m : RunMeta),
      rejectYamlInputs cfg = none → d.rootExists = true → buildActions cfg = .ok (as, m) →
      missingOf as d = [] → mismatchOf as d ≠ [] →
      cmdVerify cfg d = (EXIT_VALIDATION_FAILED, .mismatchFiles (mismatchOf as d))) ∧
    (∀ (as : List Action) (d : OutDir) (e : Mismatch), e ∈ mismatchOf as d →
      ∃ a bs, a ∈ as ∧ d.content a.rel_path = some bs ∧
        e = ⟨a.rel_path, a.sha256, sha256hex bs⟩ ∧ sha256hex bs ≠ a.sha256) ∧
    (∀ (cfg : BuildCfg) (d : OutDir) (as : List Action) (m : RunMeta),
      rejectYamlInputs cfg = none → d.rootExists = true → buildActions cfg = .ok (as, m) →
      missingOf as d = [] → mismatchOf as d = [] →
      cmdVerify cfg d = (EXIT_SUCCESS, .ok)) := by
  refine ⟨?_, ?_, ?_, ?_, ?_⟩
  · intro cfg d hrej hroot
    simp [cmdVerify, hrej, hroot]
  · intro cfg d as m hrej hroot hb hmiss
    simp only [cmdVerify, hrej, hroot, Bool.not_true, Bool.false_eq_true, if_false, hb]
    rw [if_pos hmiss]
  · intro cfg d as m hrej hroot hb hmiss hmis
    simp only [cmdVerify, hrej, hroot, Bool.not_true, Bool.false_eq_true, if_false, hb]
    rw [if_neg (fun hc => hc hmiss), if_pos hmis]
  · intro as d e he
    rw [mismatchOf] at he
    obtain ⟨a, ha, hfa⟩ := List.mem_filterMap.mp he
    refine ⟨a, ?_⟩
    cases hc : d.content a.rel_path with
    | none =>
      simp only [hc] at hfa
      exact Option.noConfusion hfa
    | some bs =>
      simp only [hc] at hfa
      by_cases hsha : sha256hex bs = a.sha256
      · rw [if_pos hsha] at hfa; cases hfa
      · rw [if_neg hsha] at hfa
        exact ⟨bs, mem_sortActions.mp ha, rfl, (Option.some.inj hfa).symm, hsha⟩
  · intro cfg d as m hrej hroot hb hmiss hmis
    simp only [cmdVerify, hrej, hroot, Bool.not_true, Bool.false_eq_true, if_false, hb]
    rw [if_neg (fun hc => hc hmiss), if_neg (fun hc => hc hmis)]

set_option maxRecDepth 200000 in
/-- Witness for C6: the four verify outcomes at concrete stores. -/
theorem claim_C6_witness :
    cmdVerify c6w_cfg emptyDir = (EXIT_PRECONDITION_FAILED, .missingRoot) ∧
    cmdVerify c6w_cfg ⟨true, fun _ => none⟩
      = (EXIT_PRECONDITION_FAILED,
         .missingFiles (sortStrings (missingOf c6w_as ⟨true, fun _ => none⟩))) ∧
    cmdVerify c6w_cfg ⟨true, fun _ => some []⟩
      = (EXIT_VALIDATION_FAILED, .mismatchFiles (mismatchOf c6w_as ⟨true, fun _ => some []⟩)) ∧
    cmdVerify c6w_cfg (writeActions emptyDir c6w_as) = (EXIT_SUCCESS, .ok) := by
  have hok : buildActions c6w_cfg = .ok (c6w_pair.1, c6w_pair.2) := rfl
  refine ⟨claim_C6.1 c6w_cfg emptyDir (by decide) rfl,
    claim_C6.2.1 c6w_cfg _ c6w_pair.1 c6w_pair.2 (by decide) rfl hok (by decide),
    claim_C6.2.2.1 c6w_cfg _ c6w_pair.1 c6w_pair.2 (by decide) rfl hok (by decide) (by decide),
    claim_C6.2.2.2.2 c6w_cfg _ c6w_pair.1 c6w_pair.2 (by decide) rfl hok ?_ ?_⟩
  · decide
  · decide

/-! ## Generate-then-verify round trip (C1) -/

theorem processOpenapi_ok_shape {r : Bool} {o : OpenapiInput} {ra}
    (h : processOpenapi r o = .ok ra) :
    ra.2.rel_path = "openapi/openapi.normalized.json" ∧
    ra.2.sha256 = sha256hex ra.2.content_bytes := by
  rw [processOpenapi] at h
  by_cases hex : o.fileExists
  · simp only [hex, Bool.not_true, Bool.false_eq_true, if_false] at h
    cases hj : o.json with
    | none =>
      simp only [hj] at h
      exact Except.noConfusion h
    | some v =>
      simp only [hj] at h
      by_cases hsec : detectSecrets v ≠ [] ∧ r = false
      · rw [if_pos hsec] at h
        exact Except.noConfusion h
      · rw [if_neg hsec] at h
        rw [← Except.ok.inj h]
        exact ⟨rfl, rfl⟩
  · simp only [hex] at h
    simp at h

theorem processSchemaFile_ok_shape {r : Bool} {f : FsEntry} {x}
    (h : processSchemaFile r f = .ok x) :
    x.2.rel_path = "schemas/" ++ f.rel ∧ x.2.sha256 = sha256hex x.2.content_bytes := by
  cases hj : f.json with
  | none =>
    simp only [processSchemaFile, hj] at h
    exact Except.noConfusion h
  | some v =>
    simp only [processSchemaFile, hj] at h
    by_cases hsec : detectSecrets v ≠ [] ∧ r = false
    · rw [if_pos hsec] at h
      exact Except.noConfusion h
    · rw [if_neg hsec] at h
      rw [← Except.ok.inj h]
      exact ⟨rfl, rfl⟩

theorem processSchemas_shape {r : Bool} :
    ∀ {fs : List FsEntry} {pairs}, processSchemas r fs = .ok pairs →
    pairs.map (fun x => x.2.rel_path) = fs.map (fun f => "schemas/" ++ f.rel) ∧
    ∀ x ∈ pairs, x.2.sha256 = sha256hex x.2.content_bytes := by
  intro fs
  induction fs with
  | nil =>
    intro pairs h
    rw [processSchemas] at h
    rw [← Except.ok.inj h]
    exact ⟨rfl, fun x hx => absurd hx (List.not_mem_nil x)⟩
  | cons g rest ih =>
    intro pairs h
    cases hg : processSchemaFile r g with
    | error e => rw [processSchemas, hg] at h; cases h
    | ok x =>
      cases hr : processSchemas r rest with
      | error e => rw [processSchemas, hg, hr] at h; cases h
      | ok xs =>
        rw [processSchemas] at h
        simp only [hg, hr] at h
        obtain ⟨hrel, hsha⟩ := ih hr
        rw [← Except.ok.inj h]
        constructor
        · rw [List.map_cons, List.map_cons, hrel, (processSchemaFile_ok_shape hg).1]
        · intro y hy
          rcases List.mem_cons.mp hy with rfl | hy
          · exact (processSchemaFile_ok_shape hg).2
          · exact hsha y hy

theorem openapiStage_props {cfg : BuildCfg} {p0}
    (h : openapiStage cfg = .ok p0) :
    (p0.2.map (fun a => a.rel_path)).Nodup ∧
    (∀ s ∈ p0.2.map (fun a => a.rel_path), s.data.head? = some 'o') ∧
    (∀ a ∈ p0.2, a.sha256 = sha256hex a.content_bytes) := by
  cases ho : cfg.openapi with
  | none =>
    simp only [openapiStage, ho] at h
    rw [← Except.ok.inj h]
    exact ⟨List.nodup_nil, fun s hs => absurd hs (List.not_mem_nil s),
      fun a ha => absurd ha (List.not_mem_nil a)⟩
  | some o =>
    simp only [openapiStage, ho] at h
    cases hp : processOpenapi cfg.redact o with
    | error e =>
      simp only [hp] at h
      exact Except.noConfusion h
    | ok ra =>
      simp only [hp] at h
      obtain ⟨hrel, hsha⟩ := processOpenapi_ok_shape hp
      rw [← Except.ok.inj h]
      refine ⟨List.nodup_singleton _, ?_, ?_⟩
      · intro s hsm
        rw [List.map_cons, List.map_nil, List.mem_singleton] at hsm
        subst hsm
        rw [hrel]
        decide
      · intro a ha
        rw [List.mem_singleton] at ha
        subst ha
        exact hsha

theorem schemas_rel_head (r : String) : ("schemas/" ++ r).data.head? = some 's' := by
  rw [String.data_append]
  rfl

theorem schemasStage_props {cfg : BuildCfg} {i1 : List InputRec} {a1 : List Action} {p}
    (hnd : SchemaRelsNodup cfg) (h : schemasStage cfg i1 a1 = .ok p) :
    ∃ acts2 : List Action, p.2 = a1 ++ acts2 ∧
      (acts2.map (fun a => a.rel_path)).Nodup ∧
      (∀ s ∈ acts2.map (fun a => a.rel_path), s.data.head? = some 's') ∧
      (∀ a ∈ acts2, a.sha256 = sha256hex a.content_bytes) := by
  cases hs : cfg.schemas with
  | none =>
    simp only [schemasStage, hs] at h
    refine ⟨[], ?_, List.nodup_nil, fun s hs => absurd hs (List.not_mem_nil s),
      fun a ha => absurd ha (List.not_mem_nil a)⟩
    rw [← Except.ok.inj h, List.append_nil]
  | some sd =>
    simp only [schemasStage, hs] at h
    by_cases hr : sd.rootExists
    · simp only [hr, Bool.not_true, Bool.false_eq_true, if_false] at h
      cases hp : processSchemas cfg.redact (walkFiles sd cfg.incl cfg.excl) with
      | error e =>
        simp only [hp] at h
        exact Except.noConfusion h
      | ok pairs =>
        simp only [hp] at h
        obtain ⟨hrels, hshas⟩ := processSchemas_shape hp
        have hrels2 : (pairs.map (fun x => x.2)).map (fun a => a.rel_path)
            = (walkFiles sd cfg.incl cfg.excl).map (fun en => "schemas/" ++ en.rel) := by
          rw [List.map_map]
          exact hrels
        have hndsd : ((walkFiles sd cfg.incl cfg.excl).map (fun en => en.rel)).Nodup := by
          have hx := hnd
          simp only [SchemaRelsNodup, hs] at hx
          exact hx
        refine ⟨pairs.map (fun x => x.2), ?_, ?_, ?_, ?_⟩
        · rw [← Except.ok.inj h]
        · rw [hrels2]
          have hmm : (walkFiles sd cfg.incl cfg.excl).map (fun en => "schemas/" ++ en.rel)
              = ((walkFiles sd cfg.incl cfg.excl).map (fun en => en.rel)).map
                  (fun r => "schemas/" ++ r) := by
            rw [List.map_map]
            rfl
          rw [hmm]
          refine List.Nodup.map ?_ hndsd
          intro a b hab
          have h2 := congrArg String.data hab
          rw [String.data_append, String.data_append] at h2
          exact String.toList_inj.mp (List.append_cancel_left h2)
        · intro s hsm
          rw [hrels2] at hsm
          obtain ⟨en, _, hen⟩ := List.mem_map.mp hsm
          rw [← hen]
          exact schemas_rel_head en.rel
        · intro a ha
          obtain ⟨x, hx, hxa⟩ := List.mem_map.mp ha
          rw [← hxa]
          exact hshas x hx
    · simp only [hr] at h
      simp at h

theorem primary_props {cfg : BuildCfg} {p}
    (hnd : SchemaRelsNodup cfg) (h : buildPrimary cfg = .ok p) :
    (p.2.map (fun a => a.rel_path)).Nodup ∧
    (∀ s ∈ p.2.map (fun a => a.rel_path),
      s.data.head? = some 'o' ∨ s.data.head? = some 's') ∧
    (∀ a ∈ p.2, a.sha256 = sha256hex a.content_bytes) := by
  obtain ⟨p0, h0, h1⟩ := buildPrimary_ok_stages h
  obtain ⟨hn0, hh0, hs0⟩ := openapiStage_props h0
  obtain ⟨acts2, hp2, hn2, hh2, hs2⟩ := schemasStage_props hnd h1
  rw [hp2, List.map_append]
  refine ⟨?_, ?_, ?_⟩
  · refine List.Nodup.append hn0 hn2 ?_
    intro s hsa hsb
    have hho := hh0 s hsa
    have hhs := hh2 s hsb
    rw [hho] at hhs
    exact absurd hhs (by decide)
  · intro s hsm
    rcases List.mem_append.mp hsm with h' | h'
    · exact Or.inl (hh0 s h')
    · exact Or.inr (hh2 s h')
  · intro a ha
    rcases List.mem_append.mp ha with h' | h'
    · exact hs0 a h'
    · exact hs2 a h'

theorem buildActions_shape {cfg : BuildCfg} {as : List Action} {m : RunMeta}
    (h : buildActions cfg = .ok (as, m)) :
    ∃ p, buildPrimary cfg = .ok p ∧
      as = (assemble cfg.redact cfg.openapi.isSome p.1 p.2).1 := by
  cases hp : buildPrimary cfg with
  | error e =>
    simp only [buildActions, hp] at h
    exact Except.noConfusion h
  | ok p =>
    obtain ⟨ins, a1⟩ := p
    refine ⟨(ins, a1), rfl, ?_⟩
    simp only [buildActions, hp] at h
    exact (congrArg Prod.fst (Except.ok.inj h)).symm

theorem assemble_rels (rf og : Bool) (ins : List InputRec) (acts1 : List Action) :
    ((assemble rf og ins acts1).1).map (fun a => a.rel_path)
        = acts1.map (fun a => a.rel_path)
          ++ ["manifest.json", "hashes/manifest.sha256", "hashes/schemas.sha256"] ∨
    ((assemble rf og ins acts1).1).map (fun a => a.rel_path)
        = acts1.map (fun a => a.rel_path)
          ++ ["manifest.json", "hashes/manifest.sha256",
              "hashes/openapi.normalized.sha256", "hashes/schemas.sha256"] := by
  simp only [assemble]
  split
  · right
    simp [mkAction, hashAction]
  · left
    simp [mkAction, hashAction]

theorem mkAction_hashOk (r k : String) (b : List Nat) :
    (mkAction r k b).sha256 = sha256hex (mkAction r k b).content_bytes := rfl

theorem hashAction_hashOk (r v : String) :
    (hashAction r v).sha256 = sha256hex (hashAction r v).content_bytes := rfl

set_option maxHeartbeats 1600000 in
theorem assemble_hashOk {rf og : Bool} {ins : List InputRec} {acts1 : List Action}
    (h1 : ∀ a ∈ acts1, a.sha256 = sha256hex a.content_bytes) :
    ∀ a ∈ (assemble rf og ins acts1).1, a.sha256 = sha256hex a.content_bytes := by
  intro a ha
  simp only [assemble] at ha
  rcases List.mem_append.mp ha with ha4 | hl
  · split at ha4
    · rcases List.mem_append.mp ha4 with ha3 | hl2
      · rcases List.mem_append.mp ha3 with ha2 | hl3
        · rcases List.mem_append.mp ha2 with ha1 | hl4
          · exact h1 a ha1
          · rw [List.mem_singleton] at hl4; subst hl4; exact mkAction_hashOk _ _ _
        · rw [List.mem_singleton] at hl3; subst hl3; exact hashAction_hashOk _ _
      · rw [List.mem_singleton] at hl2; subst hl2; exact hashAction_hashOk _ _
    · rcases List.mem_append.mp ha4 with ha2 | hl2
      · rcases List.mem_append.mp ha2 with ha1 | hl3
        · exact h1 a ha1
        · rw [List.mem_singleton] at hl3; subst hl3; exact mkAction_hashOk _ _ _
      · rw [List.mem_singleton] at hl2; subst hl2; exact hashAction_hashOk _ _
  · rw [List.mem_singleton] at hl
    subst hl
    exact hashAction_hashOk _ _

theorem assemble_ne_nil (rf og : Bool) (ins : List InputRec) (acts1 : List Action) :
    (assemble rf og ins acts1).1 ≠ [] := by
  simp only [assemble]
  intro hc
  have hlen := congrArg List.length hc
  rw [List.length_append] at hlen
  simp at hlen

theorem buildActions_props {cfg : BuildCfg} {as : List Action} {m : RunMeta}
    (hnd : SchemaRelsNodup cfg) (h : buildActions cfg = .ok (as, m)) :
    (as.map (fun a => a.rel_path)).Nodup ∧
    (∀ a ∈ as, a.sha256 = sha256hex a.content_bytes) ∧ as ≠ [] := by
  obtain ⟨p, hp, has⟩ := buildActions_shape h
  obtain ⟨hn1, hh1, hs1⟩ := primary_props hnd hp
  subst has
  refine ⟨?_, assemble_hashOk hs1, assemble_ne_nil _ _ _ _⟩
  rcases assemble_rels cfg.redact cfg.openapi.isSome p.1 p.2 with ht | ht
  all_goals
    rw [ht]
    refine List.Nodup.append hn1 (by decide) ?_
    intro s hsa hsb
    rcases hh1 s hsa with hh | hh <;> fin_cases hsb <;> exact absurd hh (by decide)

theorem foldl_writeOne_content :
    ∀ (as : List Action) (d : OutDir) (p : String),
    (as.foldl writeOne d).content p =
      match findLast as p with
      | some b => some b
      | none => d.content p := by
  intro as
  induction as with
  | nil => intro d p; rfl
  | cons a rest ih =>
    intro d p
    rw [List.foldl_cons, ih, findLast]
    cases hf : findLast rest p with
    | some b => simp [hf]
    | none =>
      by_cases hp : p = a.rel_path
      · simp [hf, writeOne, hp]
      · simp [hf, writeOne, hp]

theorem writeActions_content (d : OutDir) (as : List Action) (p : String) :
    (writeActions d as).content p =
      match findLast (sortActions as) p with
      | some b => some b
      | none => d.content p :=
  foldl_writeOne_content (sortActions as) d p

theorem foldl_writeOne_root :
    ∀ (as : List Action) (d : OutDir), d.rootExists = true →
    (as.foldl writeOne d).rootExists = true := by
  intro as
  induction as with
  | nil => intro d h; exact h
  | cons a rest ih =>
    intro d h
    rw [List.foldl_cons]
    exact ih _ rfl

theorem writeActions_root {as : List Action} (d : OutDir) (h : as ≠ []) :
    (writeActions d as).rootExists = true := by
  rw [writeActions]
  cases hs : sortActions as with
  | nil =>
    have hperm : List.Perm as ([] : List Action) := by
      rw [← hs]
      exact (sortActions_perm as).symm
    exact absurd hperm.eq_nil h
  | cons b rest =>
    rw [List.foldl_cons]
    exact foldl_writeOne_root rest _ rfl

theorem findLast_not_mem : ∀ {as : List Action} {p : String},
    p ∉ as.map (fun a => a.rel_path) → findLast as p = none := by
  intro as
  induction as with
  | nil => intro p _; rfl
  | cons a rest ih =>
    intro p hp
    rw [List.map_cons, List.mem_cons] at hp
    push_neg at hp
    simp only [findLast, ih hp.2]
    rw [if_neg hp.1]

theorem findLast_isSome : ∀ {as : List Action} {a : Action}, a ∈ as →
    ∃ b, findLast as a.rel_path = some b := by
  intro as
  induction as with
  | nil => intro a ha; exact absurd ha (List.not_mem_nil a)
  | cons b rest ih =>
    intro a ha
    rcases List.mem_cons.mp ha with rfl | ha
    · cases hf : findLast rest a.rel_path with
      | some c => exact ⟨c, by simp only [findLast, hf]⟩
      | none =>
        refine ⟨a.content_bytes, ?_⟩
        simp only [findLast, hf]
        simp
    · obtain ⟨c, hc⟩ := ih ha
      exact ⟨c, by simp only [findLast, hc]⟩

theorem findLast_nodup : ∀ {as : List Action} {a : Action},
    ((as.map (fun x => x.rel_path)).Nodup) → a ∈ as →
    findLast as a.rel_path = some a.content_bytes := by
  intro as
  induction as with
  | nil => intro a _ ha; exact absurd ha (List.not_mem_nil a)
  | cons b rest ih =>
    intro a hnd ha
    rw [List.map_cons, List.nodup_cons] at hnd
    rcases List.mem_cons.mp ha with rfl | ha
    · have hnone : findLast rest a.rel_path = none := findLast_not_mem hnd.1
      simp only [findLast, hnone]
      simp
    · simp only [findLast, ih hnd.2 ha]

theorem missingOf_write (as : List Action) (d : OutDir) :
    missingOf as (writeActions d as) = [] := by
  rw [missingOf, List.filterMap_eq_nil_iff]
  intro a ha
  obtain ⟨b, hb⟩ := findLast_isSome ha
  rw [writeActions_content]
  simp only [hb]

theorem mismatchOf_write {as : List Action} (d : OutDir)
    (hnd : (as.map (fun a => a.rel_path)).Nodup)
    (hok : ∀ a ∈ as, a.sha256 = sha256hex a.content_bytes) :
    mismatchOf as (writeActions d as) = [] := by
  rw [mismatchOf, List.filterMap_eq_nil_iff]
  intro a ha
  have hnd2 : ((sortActions as).map (fun a => a.rel_path)).Nodup :=
    (((sortActions_perm as).map (fun a => a.rel_path)).nodup_iff).mpr hnd
  have hfl : findLast (sortActions as) a.rel_path = some a.content_bytes :=
    findLast_nodup hnd2 ha
  rw [writeActions_content]
  simp only [hfl]
  rw [if_pos (hok a (mem_sortActions.mp ha)).symm]

/-- C1 (amended with the two well-formedness side conditions the commands
impose): on a snapshot with distinct discovered schema paths that passes the
YAML gate and on which `buildActions` succeeds, generate with `--apply`
exits 0; verify over the unchanged inputs against the directory generate
produced returns exit 0 with the `ok` report; and any two generate runs
leave identical bytes at every output path, regardless of the starting
state of the output directory. -/
theorem claim_C1 (cfg : BuildCfg) (d : OutDir) (as : List Action) (m : RunMeta)
    (hwf : SchemaRelsNodup cfg) (hrej : rejectYamlInputs cfg = none)
    (hb : buildActions cfg = .ok (as, m)) :
    (cmdGenerate cfg true false d).1 = EXIT_SUCCESS ∧
    cmdVerify cfg (cmdGenerate cfg true false d).2.2 = (EXIT_SUCCESS, .ok) ∧
    ∀ (d' : OutDir) (p : String), p ∈ as.map (fun a => a.rel_path) →
      ((cmdGenerate cfg true false d).2.2).content p
        = ((cmdGenerate cfg true false d').2.2).content p := by
  obtain ⟨hnd, hok, hne⟩ := buildActions_props hwf hb
  have hg : ∀ d0 : OutDir,
      cmdGenerate cfg true false d0 = (EXIT_SUCCESS, none, writeActions d0 as) := by
    intro d0
    simp [cmdGenerate, hrej, hb]
  refine ⟨by rw [hg d], ?_, ?_⟩
  · rw [hg d]
    show cmdVerify cfg (writeActions d as) = (EXIT_SUCCESS, .ok)
    have hroot := writeActions_root d hne
    simp only [cmdVerify, hrej, hroot, Bool.not_true, Bool.false_eq_true, if_false, hb]
    rw [if_neg fun hc => hc (missingOf_write as d),
        if_neg fun hc => hc (mismatchOf_write d hnd hok)]
  · intro d' p hp
    obtain ⟨a, ha, hpa⟩ := List.mem_map.mp hp
    obtain ⟨b, hb2⟩ := findLast_isSome (mem_sortActions.mpr ha)
    rw [hg d, hg d']
    show (writeActions d as).content p = (writeActions d' as).content p
    rw [writeActions_content, writeActions_content, ← hpa]
    simp only [hb2]

set_option maxRecDepth 400000 in
/-- Counterexample to C1 as stated: an OpenAPI input named `x.yaml` whose
bytes happen to be valid JSON. `buildActions` succeeds on it, yet
generate with `--apply` exits 3 at the YAML gate (writing nothing) and the
subsequent verify does not return the `ok` report. -/
theorem claim_C1_counterexample :
    (buildActions c1x_cfg).isOk = true ∧
    (cmdGenerate c1x_cfg true false emptyDir).1 ≠ EXIT_SUCCESS ∧
    cmdVerify c1x_cfg (cmdGenerate c1x_cfg true false emptyDir).2.2
      ≠ (EXIT_SUCCESS, .ok) := by
  refine ⟨?_, ?_, ?_⟩ <;> decide

set_option maxRecDepth 400000 in
/-- Witness for C1: the round trip at a concrete configuration. -/
theorem claim_C1_witness :
    SchemaRelsNodup c1w_cfg ∧ rejectYamlInputs c1w_cfg = none ∧
    (cmdGenerate c1w_cfg true false emptyDir).1 = EXIT_SUCCESS ∧
    cmdVerify c1w_cfg (cmdGenerate c1w_cfg true false emptyDir).2.2 = (EXIT_SUCCESS, .ok) ∧
    ((cmdGenerate c1w_cfg true false emptyDir).2.2).content "manifest.json"
      = ((cmdGenerate c1w_cfg true false
          (cmdGenerate c1w_cfg true false emptyDir).2.2).2.2).content "manifest.json" := by
  have h := claim_C1 c1w_cfg emptyDir c1w_pair.1 c1w_pair.2 True.intro rfl rfl
  exact ⟨True.intro, rfl, h.1, h.2.1,
    h.2.2 (cmdGenerate c1w_cfg true false emptyDir).2.2 "manifest.json" (by decide)⟩

end SchemaGen
